import Mathlib

/-!
# Verification of the FFT core of dsp-collection-js

Shallow embedding of the FFT engine of the `dsp-collection-js` repository
(`src/transform/Fft.ts`, `src/math/ComplexArray.ts`, `src/math/MutableComplex.ts`,
`src/math/Complex.ts`, `src/math/MathUtils.ts`) together with theorems settling
the frozen claims about it.

Modelling conventions:
* JavaScript `number` values appearing as array contents are modelled as exact
  reals (`ℝ`); loop indices, lengths and bit patterns are modelled as `ℕ`
  (all relevant source values are non-negative integers below 2^53).
* A `ComplexArray` is a structure of two lists of reals plus an explicit
  `length` field, mirroring the three fields of the source class.
* In-bounds element reads `a.re[i]` are modelled as `List.getD _ i 0`; every
  read performed by the embedded code paths is in bounds, so the default never
  matters (where the source itself guards out-of-range reads, the guard is
  embedded explicitly).
* The process-wide twiddle-factor cache is modelled by explicit state passing:
  every function that can touch the cache takes the cache and returns the
  possibly-extended cache.
-/

set_option autoImplicit false

open scoped Real

namespace DspFft

/-! ## MathUtils (src/math/MathUtils.ts) -/

/-- `MathUtils.isPowerOf2`: `true` iff `i` is a power of 2 between 1 and 2^30.
Source: `if (!Number.isSafeInteger(i) || i < 1 || i > 0x40000000) return false;
return (i & (i - 1)) == 0;` (on `ℕ` the safe-integer test is subsumed by the
`i ≤ 2^30` bound). -/
def isPowerOf2 (i : ℕ) : Bool :=
  decide (1 ≤ i ∧ i ≤ 0x40000000 ∧ i &&& (i - 1) = 0)

/-- Loop of `MathUtils.getNextPowerOf2`: `let n = 1; while (n <= x) n *= 2;
return n;`. The `0 < n` conjunct in the guard is needed for termination; it
holds on every reachable iteration because `n` starts at 1 and doubles. -/
def nextPow2Loop (x : ℕ) (n : ℕ) : ℕ :=
  if h : n ≤ x ∧ 0 < n then nextPow2Loop x (2 * n) else n
termination_by x + 1 - n
decreasing_by omega

/-- `MathUtils.getNextPowerOf2`: the lowest power of 2 that is strictly greater
than `x` (the source returns `NaN` for non-finite input, which cannot arise
on `ℕ`). -/
def getNextPowerOf2 (x : ℕ) : ℕ :=
  nextPow2Loop x 1

/-- `MathUtils.floorLog2`: the source computes `31 - Math.clz32(x)`, which for
the accepted range `1 ≤ x ≤ 2^31 - 1` equals `⌊log2 x⌋`; the range-violation
throw is omitted (each call site passes a power of two ≥ 2). -/
def floorLog2 (x : ℕ) : ℕ :=
  Nat.log2 x

/-! ## Complex division primitives (src/math/Complex.ts, MutableComplex.ts,
ComplexArray.ts)

Complex values are modelled as pairs `(re, im) : ℝ × ℝ`. Real-number
arithmetic on `ℝ` is noncomputable in Lean, hence the section marker; all
structure (lengths, indices, control flow) stays in computable `ℕ`. -/

noncomputable section

/-- `Complex.div` (src/math/Complex.ts): `this / x` for `this = (re1, im1)`,
`x = (re2, im2)`; divides by the squared magnitude of the *divisor*:
`const m = x.re * x.re + x.im * x.im;
return new Complex((this.re * x.re + this.im * x.im) / m,
                   (this.im * x.re - this.re * x.im) / m);` -/
def complexDiv (re1 im1 re2 im2 : ℝ) : ℝ × ℝ :=
  let m := re2 * re2 + im2 * im2
  ((re1 * re2 + im1 * im2) / m, (im1 * re2 - re1 * im2) / m)

/-- `MutableComplex.setDiv` and `ComplexArray.setDiv` (both share this exact
formula): the pair written by `setDiv(re1, im1, re2, im2)`. Note that the
source divides by `re1 * re1 + im1 * im1`, the squared magnitude of the
*dividend*:
`const m = re1 * re1 + im1 * im1;
this.re = (re1 * re2 + im1 * im2) / m;
this.im = (im1 * re2 - re1 * im2) / m;` -/
def setDiv (re1 im1 re2 im2 : ℝ) : ℝ × ℝ :=
  let m := re1 * re1 + im1 * im1
  ((re1 * re2 + im1 * im2) / m, (im1 * re2 - re1 * im2) / m)

/-- `MutableComplex.setMul` / `ComplexArray.setMul`: the pair written by
`setMul(re1, im1, re2, im2)`, i.e. the complex product `(re1,im1)·(re2,im2)`. -/
def setMul (re1 im1 re2 im2 : ℝ) : ℝ × ℝ :=
  (re1 * re2 - im1 * im2, re1 * im2 + im1 * re2)

/-! ## ComplexArray (src/math/ComplexArray.ts)

The class holds three fields: `re`, `im` (both `Float64Array`) and `length`.
All constructors establish `re.length = im.length = length`; `wf` names that
invariant. -/

/-- The three fields of the `ComplexArray` class. -/
structure CArr where
  re : List ℝ
  im : List ℝ
  length : ℕ

/-- Class invariant maintained by every `ComplexArray` constructor: both
backing arrays have exactly `length` elements. -/
def CArr.wf (a : CArr) : Prop :=
  a.re.length = a.length ∧ a.im.length = a.length

instance (a : CArr) : Decidable a.wf := by
  unfold CArr.wf; infer_instance

/-- Element read `a.re[i]` (in bounds at every embedded call site). -/
def CArr.reAt (a : CArr) (i : ℕ) : ℝ := a.re.getD i 0

/-- Element read `a.im[i]` (in bounds at every embedded call site). -/
def CArr.imAt (a : CArr) (i : ℕ) : ℝ := a.im.getD i 0

/-- Store into `a.re[i]`. -/
def CArr.setRe (a : CArr) (i : ℕ) (v : ℝ) : CArr :=
  ⟨a.re.set i v, a.im, a.length⟩

/-- Store into `a.im[i]`. -/
def CArr.setIm (a : CArr) (i : ℕ) (v : ℝ) : CArr :=
  ⟨a.re, a.im.set i v, a.length⟩

/-- `new ComplexArray(n)`: zero-filled array of length `n`. -/
def zeroArr (n : ℕ) : CArr :=
  ⟨List.replicate n 0, List.replicate n 0, n⟩

/-- `new ComplexArray(x)` for `x : ArrayLike<number>`: real parts copied,
imaginary parts zeroed. -/
def ofReal (xs : List ℝ) : CArr :=
  ⟨xs, List.replicate xs.length 0, xs.length⟩

/-- `ComplexArray.slice()` with no arguments: an independent full copy; the
`length` field is set from the copied backing array
(`a2.length = a2.re.length`). -/
def CArr.slice (a : CArr) : CArr :=
  ⟨a.re, a.im, a.re.length⟩

/-- `ComplexArray.subarray(begin, end)`: view of the index range
`[b, e)`; the source sets `a2.length = end - begin` unconditionally. -/
def CArr.subarray (a : CArr) (b e : ℕ) : CArr :=
  ⟨(a.re.take e).drop b, (a.im.take e).drop b, e - b⟩

/-- `ComplexArray.mulAllByReal(x)`: multiply every element by the real `x`
(the source loops `i` over `0 ≤ i < length` calling `mulByReal(i, x)`). -/
def CArr.mulAllByReal (a : CArr) (x : ℝ) : CArr :=
  ⟨a.re.map (· * x), a.im.map (· * x), a.length⟩

/-- `ComplexArray.mulByArray(a2)`: elementwise complex multiplication into
`this` (the source asserts equal lengths and loops
`setMul(i, re[i], im[i], a2.re[i], a2.im[i])` for `i < length`). -/
def CArr.mulByArray (a a2 : CArr) : CArr :=
  ⟨(List.range a.length).map (fun (i : ℕ) => (setMul (a.reAt i) (a.imAt i) (a2.reAt i) (a2.imAt i)).1),
   (List.range a.length).map (fun (i : ℕ) => (setMul (a.reAt i) (a.imAt i) (a2.reAt i) (a2.imAt i)).2),
   a.length⟩

/-- `ComplexArray.setDiv(i, re1, im1, re2, im2)`: stores the `setDiv` pair
into slot `i`. -/
def CArr.setDivAt (a : CArr) (i : ℕ) (re1 im1 re2 im2 : ℝ) : CArr :=
  ⟨a.re.set i (setDiv re1 im1 re2 im2).1, a.im.set i (setDiv re1 im1 re2 im2).2, a.length⟩

/-! ## Sine tables and the twiddle-factor cache (src/transform/Fft.ts) -/

/-- `createSineTable(tableLength, waveLength, rotationalDirection)`:
entry `i` is `(cos(i·w), ±sin(i·w))` with `w = 2π/waveLength`; the sign of the
imaginary part is `+` when `rotationalDirection` is `true`, `-` otherwise. -/
def createSineTable (tableLength : ℕ) (waveLength : ℝ) (rotationalDirection : Bool) : CArr :=
  let w : ℝ := 2 * Real.pi / waveLength
  ⟨(List.range tableLength).map (fun (i : ℕ) => Real.cos (i * w)),
   (List.range tableLength).map
     (fun (i : ℕ) => if rotationalDirection then Real.sin (i * w) else -Real.sin (i * w)),
   tableLength⟩

/-- `createCooleyTukeySineTable(n)` = `createSineTable(n / 2, n, false)`. -/
def createCooleyTukeySineTable (n : ℕ) : CArr :=
  createSineTable (n / 2) (n : ℝ) false

/-- `createSineOfSquareTable(tableLength, waveLength)`: entry `i` is
`(cos t, sin t)` with `t = ((i·i) mod waveLength) · (2π/waveLength)`; the
`mod` is taken on integers before scaling (the source's precision safeguard). -/
def createSineOfSquareTable (tableLength : ℕ) (waveLength : ℕ) : CArr :=
  let w : ℝ := 2 * Real.pi / (waveLength : ℝ)
  ⟨(List.range tableLength).map (fun (i : ℕ) => Real.cos ((i * i % waveLength : ℕ) * w)),
   (List.range tableLength).map (fun (i : ℕ) => Real.sin ((i * i % waveLength : ℕ) * w)),
   tableLength⟩

/-- The module-level mutable `cooleyTukeySineTableCache`, an array of tables
indexed by `⌊log2 n⌋`. Unset slots are `none`. -/
def Cache : Type := ℕ → Option CArr

/-- The state before any table has been requested (in the source the cache
array is created lazily; its slots all start undefined). -/
def emptyCache : Cache := fun _ => none

/-- `getCachedCooleyTukeySineTable(n)`: return the table cached under key
`⌊log2 n⌋`, building and storing it on first request. -/
def getCachedCooleyTukeySineTable (c : Cache) (n : ℕ) : CArr × Cache :=
  match c (floorLog2 n) with
  | some t => (t, c)
  | none =>
      (createCooleyTukeySineTable n,
       fun j => if j = floorLog2 n then some (createCooleyTukeySineTable n) else c j)

/-! ## Bit reversal (src/transform/Fft.ts) -/

/-- Loop of `incrementBitReversed`: `while (a & m) { a -= m; m >>= 1; }
return a | m;` (when `m` reaches 0 the guard `a & 0` is 0 and `a | 0 = a`). -/
def ibrLoop (a m : ℕ) : ℕ :=
  if a &&& m ≠ 0 then ibrLoop (a - m) (m / 2) else a ||| m
termination_by m
decreasing_by
  exact Nat.div_lt_self (by rcases Nat.eq_zero_or_pos m with h | h
                            · simp [h] at *
                            · exact h) one_lt_two

/-- `incrementBitReversed(i, n)`: increments `i` in bit-reversed order, with
the carry running from the top bit `m = n >> 1` downwards; `n` must be a
power of 2. -/
def incrementBitReversed (i n : ℕ) : ℕ :=
  ibrLoop i (n / 2)

/-- The value of the source's running index `i1` in `copyBitReversed` after
`j` loop iterations: `i1` starts at 0 and is incremented bit-reversed once per
iteration. -/
def ibrIter (n j : ℕ) : ℕ :=
  (fun p => incrementBitReversed p n)^[j] 0

/-- `copyBitReversed(a1)`: a fresh array whose slot `i2` receives the element
of `a1` at the running bit-reversed index `i1` (threaded through the loop;
after `i2` iterations `i1 = ibrIter n i2`). -/
def copyBitReversed (a1 : CArr) : CArr :=
  let n := a1.length
  ⟨(List.range n).map (fun (i2 : ℕ) => a1.reAt (ibrIter n i2)),
   (List.range n).map (fun (i2 : ℕ) => a1.imAt (ibrIter n i2)),
   n⟩

/-- Reference definition, from the spec's words only (§4.3 step 1 and the
glossary): the bit reversal of `j` over `k` bits — bit 0 of `j` becomes bit
`k-1` of the result, and so on. -/
def bitRevSpec : ℕ → ℕ → ℕ
  | 0, _ => 0
  | k + 1, j => j % 2 * 2 ^ k + bitRevSpec k (j / 2)

/-! ## Radix-2 butterflies (src/transform/Fft.ts, `applyButterflies`) -/

/-- Innermost butterfly body for one pair `(i, j = i + mMax)` and twiddle
`w = (wRe, wIm)`:
`temp.setMul(re[j], im[j], wRe, wIm);
re[j] = re[i] - temp.re; im[j] = im[i] - temp.im;
re[i] += temp.re;        im[i] += temp.im;`
The four stores are performed in source order. -/
def butterflyPair (w : ℝ × ℝ) (mMax : ℕ) (a : CArr) (i : ℕ) : CArr :=
  let j := i + mMax
  let t := setMul (a.reAt j) (a.imAt j) w.1 w.2
  let a1 := a.setRe j (a.reAt i - t.1)
  let a2 := a1.setIm j (a1.imAt i - t.2)
  let a3 := a2.setRe i (a2.reAt i + t.1)
  a3.setIm i (a3.imAt i + t.2)

/-- One pass of `applyButterflies` for a fixed stage width `mMax`:
`step = 2·mMax`, `sinStep = n / step`; for each group `m < mMax` the twiddle
is `sineTable[m · sinStep]` and the pair body runs for
`i = m, m + step, m + 2·step, …  (i < n)` — that is
`⌈(n - m) / step⌉` iterations. -/
def butterflyStage (sineTable : CArr) (n mMax : ℕ) (a : CArr) : CArr :=
  let step := mMax * 2
  let sinStep := n / step
  (List.range mMax).foldl
    (fun acc m =>
      let wIndex := m * sinStep
      let w := (sineTable.reAt wIndex, sineTable.imAt wIndex)
      (List.range' m ((n - m + step - 1) / step) step).foldl (butterflyPair w mMax) acc)
    a

/-- Outer loop of `applyButterflies`:
`for (mMax = 1; mMax < n; mMax *= 2)`. The `0 < mMax` conjunct is needed for
termination and holds on every reachable iteration (`mMax` starts at 1 and
doubles). -/
def butterflyStages (sineTable : CArr) (n mMax : ℕ) (a : CArr) : CArr :=
  if h : 0 < mMax ∧ mMax < n then
    butterflyStages sineTable n (mMax * 2) (butterflyStage sineTable n mMax a)
  else a
termination_by n - mMax
decreasing_by omega

/-- `applyButterflies(a, sineTable)`: in-place radix-2 butterfly passes on the
length-`n` working array (`n = a.length` is a power of 2 at every call site). -/
def applyButterflies (a : CArr) (sineTable : CArr) : CArr :=
  butterflyStages sineTable a.length 1 a

/-! ## The transforms (src/transform/Fft.ts) -/

/-- `swapReIm(a)`: fresh `ComplexArray` object whose channels alias the input's
arrays crosswise (`a2.re = a.im; a2.im = a.re; a2.length = a.length`). -/
def swapReIm (a : CArr) : CArr :=
  ⟨a.im, a.re, a.length⟩

/-- `fftCooleyTukey(x)` with the cache threaded: fetch the sine table for
`n = x.length`, copy the input bit-reversed, apply the butterflies. -/
def fftCooleyTukeyS (c : Cache) (x : CArr) : CArr × Cache :=
  let r := getCachedCooleyTukeySineTable c x.length
  let a := copyBitReversed x
  (applyButterflies a r.1, r.2)

/-- The working size `m` chosen by `fftBluestein` for input length `n`:
`MathUtils.getNextPowerOf2(2 * n - 3)` (minimum space needed by the kernel
`[0 1 2 … n-2 n-1 n-2 … 2 1]`, of support `2n - 2`). -/
def bluesteinM (n : ℕ) : ℕ :=
  getNextPowerOf2 (2 * n - 3)

/-- Modulated, zero-padded buffer `a1` of `fftBluestein`: a fresh length-`m`
zero array whose first `n` slots receive
`setMul(i, x.re[i], x.im[i], sineTable.re[i], -sineTable.im[i])`. -/
def bluesteinA1 (x : CArr) (st : CArr) (n m : ℕ) : CArr :=
  ⟨(List.range m).map (fun (i : ℕ) =>
      if i < n then (setMul (x.reAt i) (x.imAt i) (st.reAt i) (-st.imAt i)).1 else 0),
   (List.range m).map (fun (i : ℕ) =>
      if i < n then (setMul (x.reAt i) (x.imAt i) (st.reAt i) (-st.imAt i)).2 else 0),
   m⟩

/-- Convolution kernel buffer `a2` of `fftBluestein`: a fresh length-`m` zero
array holding the chirp at slots `0 … n-1` (first copy loop) and its mirror at
slots `m-1 … m-n+1` (second copy loop, `a2[m-i] = sineTable[i]` for
`1 ≤ i < n`, executed after the first and therefore winning any overlap —
`m ≥ 2n-2` makes the only possible overlap, slot `n-1` when `m = 2n-2`,
receive the same value from both loops). -/
def bluesteinA2 (st : CArr) (n m : ℕ) : CArr :=
  ⟨(List.range m).map (fun (p : ℕ) =>
      if 0 < m - p ∧ m - p < n then st.reAt (m - p)
      else if p < n then st.reAt p else 0),
   (List.range m).map (fun (p : ℕ) =>
      if 0 < m - p ∧ m - p < n then st.imAt (m - p)
      else if p < n then st.imAt p else 0),
   m⟩

/-- Final demodulation of `fftBluestein`: `a4[i] = setMul(i, a3.re[i],
a3.im[i], sineTable.re[i], -sineTable.im[i])` for `i < n`. -/
def bluesteinA4 (a3 : CArr) (st : CArr) (n : ℕ) : CArr :=
  ⟨(List.range n).map (fun (i : ℕ) => (setMul (a3.reAt i) (a3.imAt i) (st.reAt i) (-st.imAt i)).1),
   (List.range n).map (fun (i : ℕ) => (setMul (a3.reAt i) (a3.imAt i) (st.reAt i) (-st.imAt i)).2),
   n⟩

/-- `convolve(a1, a2)` with the cache threaded and the complex transform it
calls passed as `fftFn` (the source calls the module-level `fft`; the knot is
tied in `fftS` below): forward-transform both inputs, multiply the spectra,
inverse-transform, scale by `1/n`. The source throws
`"Array lengths are not equal."` on a length mismatch; that branch is
unreachable from `fftBluestein` (both buffers have length `m`) and is
modelled as returning an empty array. -/
def convolveWith (fftFn : Cache → CArr → Bool → CArr × Cache) (c : Cache) (a1 a2 : CArr) :
    CArr × Cache :=
  if a2.length ≠ a1.length then (zeroArr 0, c)
  else
    let r3 := fftFn c a1 true
    let r4 := fftFn r3.2 a2 true
    let a3 := r3.1.mulByArray r4.1
    let r5 := fftFn r4.2 a3 false
    (r5.1.mulAllByReal (1 / (a1.length : ℝ)), r5.2)

/-- `fftBluestein(x)` with the cache threaded and the inner complex transform
passed as `fftFn`: working size `m`, chirp table for wavelength `2n`,
modulation into `a1`, kernel `a2`, circular convolution, demodulation. -/
def fftBluesteinWith (fftFn : Cache → CArr → Bool → CArr × Cache) (c : Cache) (x : CArr) :
    CArr × Cache :=
  let n := x.length
  let m := bluesteinM n
  let st := createSineOfSquareTable n (2 * n)
  let r := convolveWith fftFn c (bluesteinA1 x st n m) (bluesteinA2 st n m)
  (bluesteinA4 r.1 st n, r.2)

/-- `fft(x, direction)` with the cache threaded and an explicit `fuel` bound
on the nesting depth of the `fft → fftBluestein → convolve → fft` recursion.
The source's recursion is not well-founded in general: for lengths beyond the
2^30 cap of `isPowerOf2` the inner transform length grows forever (the
program would attempt ever larger allocations). `fuel` makes the depth
explicit; depth 1 suffices for every length the source supports, because the
convolution size `m` is a power of 2 accepted by `isPowerOf2`. The
fuel-exhausted branch is unreachable for those lengths. -/
def fftS : ℕ → Cache → CArr → Bool → CArr × Cache
  | fuel, c, x, direction =>
    if x.length ≤ 1 then (x.slice, c)
    else
      let x2 := if direction then x else swapReIm x
      let r :=
        if isPowerOf2 x.length then fftCooleyTukeyS c x2
        else
          match fuel with
          | 0 => (x2.slice, c)
          | fuel' + 1 => fftBluesteinWith (fun c' y d => fftS fuel' c' y d) c x2
      (if direction then r.1 else swapReIm r.1, r.2)

/-- `fftBluestein` at nesting depth `fuel`. -/
def fftBluesteinS (fuel : ℕ) : Cache → CArr → CArr × Cache :=
  fftBluesteinWith (fftS fuel)

/-- `convolve` at nesting depth `fuel`. -/
def convolveS (fuel : ℕ) : Cache → CArr → CArr → CArr × Cache :=
  convolveWith (fftS fuel)

/-- Nesting-depth bound used by the public entry points. Depth 1 is reached
only through `fftBluestein`, whose inner transforms have power-of-2 length;
64 is therefore far more than any input the source supports can consume. -/
def fftFuel : ℕ := 64

/-- `fft(x, direction)`, the public dispatcher, with the cache threaded. -/
def fft (c : Cache) (x : CArr) (direction : Bool) : CArr × Cache :=
  fftS fftFuel c x direction

/-! ## Real-signal codec (src/transform/Fft.ts) -/

/-- The spec's error taxonomy (§7): precondition violations surface as typed
errors. Every `throw new Error(msg)` of the embedded module is an
InvalidArgument case of the taxonomy and carries the source's message. -/
inductive FftError where
  | invalidArgument (msg : String) : FftError
deriving DecidableEq

/-- `fftReal(x)`: complex FFT of a real-valued input. -/
def fftReal (c : Cache) (x : List ℝ) : CArr × Cache :=
  fft c (ofReal x) true

/-- Packed half-length input of `fftRealHalf`: `a1.re[i] = x[2i]`,
`a1.im[i] = x[2i+1]` for `i < n = x.length / 2`. -/
def packPairs (x : List ℝ) (n : ℕ) : CArr :=
  ⟨(List.range n).map (fun (i : ℕ) => x.getD (2 * i) 0),
   (List.range n).map (fun (i : ℕ) => x.getD (2 * i + 1) 0),
   n⟩

/-- Reconstruction array `a3` of `fftRealHalf` from the half-size transform
`a2` (length `n`):
slot 0 gets `(a2.re[0] + a2.im[0], 0)`; when `inclNyquist`, slot `n` gets
`(a2.re[0] - a2.im[0], 0)`; slot `i` for `1 ≤ i < n` combines
`temp1 = setMul(a2[i], (1-sin(iw))/2, -cos(iw)/2)` and
`temp2 = setMul(a2[n-i], (1+sin(iw))/2, -cos(iw)/2)` with `w = π/n` into
`(temp1.re + temp2.re, temp1.im - temp2.im)`. -/
def realHalfRecombine (a2 : CArr) (n : ℕ) (inclNyquist : Bool) : CArr :=
  let w : ℝ := Real.pi / (n : ℝ)
  let len := n + (if inclNyquist then 1 else 0)
  ⟨(List.range len).map (fun (i : ℕ) =>
      if i = 0 then a2.reAt 0 + a2.imAt 0
      else if i = n then a2.reAt 0 - a2.imAt 0
      else
        let sRe := Real.sin (i * w)
        let sIm := Real.cos (i * w)
        (setMul (a2.reAt i) (a2.imAt i) ((1 - sRe) / 2) (-sIm / 2)).1 +
          (setMul (a2.reAt (n - i)) (a2.imAt (n - i)) ((1 + sRe) / 2) (-sIm / 2)).1),
   (List.range len).map (fun (i : ℕ) =>
      if i = 0 then 0
      else if i = n then 0
      else
        let sRe := Real.sin (i * w)
        let sIm := Real.cos (i * w)
        (setMul (a2.reAt i) (a2.imAt i) ((1 - sRe) / 2) (-sIm / 2)).2 -
          (setMul (a2.reAt (n - i)) (a2.imAt (n - i)) ((1 + sRe) / 2) (-sIm / 2)).2),
   len⟩

/-- `fftRealHalf(x, inclNyquist)`: length ≤ 1 returns `new ComplexArray(x)`
unchanged; an odd length > 1 throws `"Input array size is not even."`;
otherwise pack pairs, run the half-size complex FFT, and recombine. -/
def fftRealHalf (c : Cache) (x : List ℝ) (inclNyquist : Bool) :
    Except FftError (CArr × Cache) :=
  if x.length ≤ 1 then .ok (ofReal x, c)
  else if x.length % 2 ≠ 0 then .error (.invalidArgument "Input array size is not even.")
  else
    let n := x.length / 2
    let r := fft c (packPairs x n) true
    .ok (realHalfRecombine r.1 n inclNyquist, r.2)

/-- The normalization factor applied by `fftRealSpectrum` to bin `i` of a
length-`n` input: `(i == 0 || i == n / 2) ? 1 / n : 2 / n`, where `n / 2` is
exact real division (for odd `n` no integer `i` satisfies it), i.e.
`2 * i = n`. -/
def normFactor (n i : ℕ) : ℝ :=
  if i = 0 ∨ 2 * i = n then 1 / (n : ℝ) else 2 / (n : ℝ)

/-- The normalization loop of `fftRealSpectrum`: `a.mulByReal(i, r)` for every
`i < a.length` with `r = normFactor n i`. -/
def scaleSpectrum (a : CArr) (n : ℕ) : CArr :=
  ⟨(List.range a.length).map (fun (i : ℕ) => a.reAt i * normFactor n i),
   (List.range a.length).map (fun (i : ℕ) => a.imAt i * normFactor n i),
   a.length⟩

/-- The intermediate array `a` of `fftRealSpectrum` before the normalization
loop — in the spec's words, the unnormalized lower-half transform: for even
length the result of `fftRealHalf` (which cannot throw there; the error arm
is unreachable), for odd length the full complex FFT truncated to
`⌊n/2⌋ + 1` bins. -/
def lowerHalfUnnormalized (c : Cache) (x : List ℝ) (inclNyquist : Bool) : CArr × Cache :=
  if x.length % 2 = 0 then
    match fftRealHalf c x inclNyquist with
    | .ok p => p
    | .error _ => (zeroArr 0, c)
  else
    let r := fftReal c x
    (r.1.subarray 0 (x.length / 2 + 1), r.2)

/-- `fftRealSpectrum(x, inclNyquist)`: empty input throws
`"Input array must not be empty."`; even length delegates to `fftRealHalf`,
odd length truncates the full FFT; both paths then normalize amplitudes. -/
def fftRealSpectrum (c : Cache) (x : List ℝ) (inclNyquist : Bool) :
    Except FftError (CArr × Cache) :=
  if x.length = 0 then .error (.invalidArgument "Input array must not be empty.")
  else if x.length % 2 = 0 then
    match fftRealHalf c x inclNyquist with
    | .error e => .error e
    | .ok p => .ok (scaleSpectrum p.1 x.length, p.2)
  else
    let r := fftReal c x
    let a := r.1.subarray 0 (x.length / 2 + 1)
    .ok (scaleSpectrum a x.length, r.2)

/-- `fftShift(x)`: rotate by `d = ⌊n/2⌋` to the right — the source scatters
`a[(p + d) % n] = x[p]` over a fresh zero array for `p < n`. -/
def fftShift (x : CArr) : CArr :=
  let n := x.length
  let d := n / 2
  (List.range n).foldl
    (fun acc p => (acc.setRe ((p + d) % n) (x.reAt p)).setIm ((p + d) % n) (x.imAt p))
    (zeroArr n)

/-- `createFullSpectrumFromHalfSpectrum(x, len, inclNyquist)`: fresh length
`len` array with the DC bin copied to slot 0, optionally the Nyquist bin
copied to slot `len/2`, and `n2 = min(x.length - 1, ⌊(len-1)/2⌋)` complex
conjugates scattered to slots `len-1-i` for `i < n2`. The three write phases
touch disjoint slots; the if-chain tests the (last-executed) conjugate phase
first. -/
def createFullSpectrumFromHalfSpectrum (x : CArr) (len : ℕ) (inclNyquist : Bool) : CArr :=
  let n2 := min (x.length - 1) ((len - 1) / 2)
  ⟨(List.range len).map (fun (q : ℕ) =>
      if len - 1 - q < n2 then x.reAt (1 + (len - 1 - q))
      else if inclNyquist ∧ len % 2 = 0 ∧ len / 2 < x.length ∧ q = len / 2 then x.reAt (len / 2)
      else if q = 0 then x.reAt 0
      else 0),
   (List.range len).map (fun (q : ℕ) =>
      if len - 1 - q < n2 then -x.imAt (1 + (len - 1 - q))
      else if inclNyquist ∧ len % 2 = 0 ∧ len / 2 < x.length ∧ q = len / 2 then x.imAt (len / 2)
      else if q = 0 then x.imAt 0
      else 0),
   len⟩

/-- `iFftRealHalfSimple(x, len, inclNyquist)`: `x.length == 0 || len <= 0`
returns `new Float64Array(0)`; otherwise rebuild the full spectrum, run a
full inverse FFT and return its real channel. The function contains no
`throw`. `len` is modelled as `ℤ` because the guard compares it against 0. -/
def iFftRealHalfSimple (c : Cache) (x : CArr) (len : ℤ) (inclNyquist : Bool) :
    List ℝ × Cache :=
  if x.length = 0 ∨ len ≤ 0 then ([], c)
  else
    let x2 := createFullSpectrumFromHalfSpectrum x len.toNat inclNyquist
    let r := fft c x2 false
    (r.1.re, r.2)

/-- Element read `x.re[i]` guarded as in the source's local helper
`xRe(i) { return (i < x.length) ? x.re[i] : 0; }`. -/
def CArr.xRe (x : CArr) (i : ℕ) : ℝ :=
  if i < x.length then x.reAt i else 0

/-- Element read `x.im[i]` guarded as in the source's local helper `xIm`. -/
def CArr.xIm (x : CArr) (i : ℕ) : ℝ :=
  if i < x.length then x.imAt i else 0

/-- Half-length spectrum `a1` built by `iFftRealHalfOpt` (length `n = len/2`):
slot 0 holds `(xRe 0 + νa, xRe 0 - νa)` with `νa = xRe n` when `inclNyquist`
else 0; slot `i` for `1 ≤ i < n` combines
`temp1 = setMul(x[i], (1-sin(iw))/2, cos(iw)/2)` and
`temp2 = setMul(x[n-i], (1+sin(iw))/2, cos(iw)/2)` with `w = π/n` into
`(temp1.re + temp2.re, temp1.im - temp2.im)`. -/
def iOptPack (x : CArr) (n : ℕ) (inclNyquist : Bool) : CArr :=
  let w : ℝ := Real.pi / (n : ℝ)
  ⟨(List.range n).map (fun (i : ℕ) =>
      if i = 0 then x.xRe 0 + (if inclNyquist then x.xRe n else 0)
      else
        let sRe := Real.sin (i * w)
        let sIm := Real.cos (i * w)
        (setMul (x.xRe i) (x.xIm i) ((1 - sRe) / 2) (sIm / 2)).1 +
          (setMul (x.xRe (n - i)) (x.xIm (n - i)) ((1 + sRe) / 2) (sIm / 2)).1),
   (List.range n).map (fun (i : ℕ) =>
      if i = 0 then x.xRe 0 - (if inclNyquist then x.xRe n else 0)
      else
        let sRe := Real.sin (i * w)
        let sIm := Real.cos (i * w)
        (setMul (x.xRe i) (x.xIm i) ((1 - sRe) / 2) (sIm / 2)).2 -
          (setMul (x.xRe (n - i)) (x.xIm (n - i)) ((1 + sRe) / 2) (sIm / 2)).2),
   n⟩

/-- `iFftRealHalfOpt(x, len, inclNyquist)`: `len <= 0` returns
`new Float64Array(0)` (this check precedes the parity check); an odd `len`
throws `"output length is not even."`; otherwise run the half-length inverse
FFT and unpack `a3[2i] = a2.re[i]`, `a3[2i+1] = a2.im[i]`. -/
def iFftRealHalfOpt (c : Cache) (x : CArr) (len : ℤ) (inclNyquist : Bool) :
    Except FftError (List ℝ × Cache) :=
  if len ≤ 0 then .ok ([], c)
  else if len % 2 ≠ 0 then .error (.invalidArgument "output length is not even.")
  else
    let n := len.toNat / 2
    let a1 := iOptPack x n inclNyquist
    let r := fft c a1 false
    let a3 := (List.range (2 * n)).map
      (fun (t : ℕ) => if t % 2 = 0 then r.1.reAt (t / 2) else r.1.imAt (t / 2))
    .ok (a3, r.2)

/-- `iFftRealHalf(x, len, inclNyquist)`: even `len` dispatches to the
optimized version, odd `len` to the simple version (which never throws). -/
def iFftRealHalf (c : Cache) (x : CArr) (len : ℤ) (inclNyquist : Bool) :
    Except FftError (List ℝ × Cache) :=
  if len % 2 = 0 then iFftRealHalfOpt c x len inclNyquist
  else .ok (iFftRealHalfSimple c x len inclNyquist)

/-! ## Cache evolution (spec §3 "append-only memoization") -/

/-- Append-only evolution between cache states: every slot is either unchanged
or newly filled where it was previously unset. This is the spec's "entries are
never evicted or mutated once created; the only mutation is the possible
addition of a new table". -/
def cacheEvolves (c c' : Cache) : Prop :=
  ∀ j, c' j = c j ∨ (c j = none ∧ ∃ t, c' j = some t)

/-- The cache state after a call that may throw: the state carried by `.ok`,
or the pre-call state when the call threw (every embedded throw happens before
the cache is touched). -/
def errCache {α : Type} (c : Cache) : Except FftError (α × Cache) → Cache
  | .ok p => p.2
  | .error _ => c

/-! ## Semantic values for the transform correctness development -/

/-- The complex value stored at slot `j` of a `ComplexArray`. -/
def CArr.toC (a : CArr) (j : ℕ) : ℂ :=
  ⟨a.reAt j, a.imAt j⟩

/-- The primitive `n`-th root of unity used to express the transforms. -/
def zetaC (n : ℕ) : ℂ :=
  Complex.exp (2 * Real.pi * Complex.I / n)

/-- The discrete Fourier transform of the first `n` values of `f`, with the
forward sign convention matched by the source's twiddle tables
(`e^(-2*pi*I*j*t/n)`). -/
def dftC (f : ℕ → ℂ) (n j : ℕ) : ℂ :=
  ∑ t ∈ Finset.range n, f t * zetaC n ^ (-(j * t : ℤ))

/-- The unnormalized inverse transform (positive exponents). -/
def idftC (f : ℕ → ℂ) (n j : ℕ) : ℂ :=
  ∑ t ∈ Finset.range n, f t * zetaC n ^ ((j * t : ℤ))

/-- Validity of the twiddle cache: any filled slot `j` holds the canonical
table for size `2^j`. Every write of `getCachedCooleyTukeySineTable` in the
reachable flows requests a power-of-two size, so this invariant is
maintained; it holds vacuously for `emptyCache`. -/
def CacheOk (c : Cache) : Prop :=
  ∀ j t, c j = some t → t = createCooleyTukeySineTable (2 ^ j)

/-- The first `g` iterations of `applyButterflies`' group loop (the loop over
`m` inside one stage): for each group `m < g` the inner pair loop runs with
twiddle `sineTable[m * sinStep]`. `butterflyStage st n mMax` is exactly
`butterflyGroups st n mMax mMax`; the prefix form supports induction over
the groups. -/
def butterflyGroups (st : CArr) (n mMax g : ℕ) (a : CArr) : CArr :=
  (List.range g).foldl
    (fun acc m =>
      let wIndex := m * (n / (mMax * 2))
      let w := (st.reAt wIndex, st.imAt wIndex)
      (List.range' m ((n - m + mMax * 2 - 1) / (mMax * 2)) (mMax * 2)).foldl
        (butterflyPair w mMax) acc)
    a



/-- Loop invariant of the radix-2 stages: after the stages of widths
`1, 2, …, 2^(s-1)` have been applied to the bit-reversed copy of `x`
(length `2^k`), slot `j` holds the `(j mod 2^s)`-th output of the size-`2^s`
DFT of the decimated input subsequence
`u ↦ x[bitRev (k-s) (j / 2^s) + u * 2^(k-s)]`. -/
def ctInv (x : CArr) (k s j : ℕ) : ℂ :=
  ∑ u ∈ Finset.range (2 ^ s),
    x.toC (bitRevSpec (k - s) (j / 2 ^ s) + u * 2 ^ (k - s)) *
      zetaC (2 ^ s) ^ (-(((j % 2 ^ s) * u : ℕ) : ℤ))

end

/-! ## Claim C1: `setDiv` and the complex quotient -/

/-- **C1** (code bug). The claim states that `setDiv(i, re1, im1, re2, im2)`
stores the complex quotient `(re1,im1) / (re2,im2)` into slot `i`. The code
divides by `re1² + im1²`, the squared magnitude of the *dividend*, while the
quotient — as computed by `Complex.div` of the same repository and as stated
in `setDiv`'s own doc comment — divides by `re2² + im2²`. At
`(re1,im1) = (2,0)`, `(re2,im2) = (1,0)` the code stores `(1/2, 0)` although
`(2+0i)/(1+0i) = (2, 0)`. -/
theorem claim1_setDiv_quotient_bug :
    setDiv 2 0 1 0 = (1 / 2, 0) ∧
      complexDiv 2 0 1 0 = (2, 0) ∧
      ((zeroArr 1).setDivAt 0 2 0 1 0).reAt 0 = 1 / 2 ∧
      setDiv 2 0 1 0 ≠ complexDiv 2 0 1 0 := by
  refine ⟨?_, ?_, ?_, ?_⟩
  all_goals simp [setDiv, complexDiv, CArr.setDivAt, CArr.reAt, zeroArr, Prod.ext_iff]
  all_goals norm_num

/-! ## Claim C3: the Bluestein working size -/

theorem nextPow2Loop_gt (x : ℕ) : ∀ n, 0 < n → x < nextPow2Loop x n := by
  have key : ∀ d n, x + 1 - n ≤ d → 0 < n → x < nextPow2Loop x n := by
    intro d
    induction d with
    | zero =>
        intro n h hn
        rw [nextPow2Loop]
        have hng : ¬(n ≤ x ∧ 0 < n) := by omega
        rw [dif_neg hng]; omega
    | succ d ih =>
        intro n h hn
        rw [nextPow2Loop]
        split
        · next hc => exact ih (2 * n) (by omega) (by omega)
        · next hc => omega
  intro n hn
  exact key (x + 1 - n) n le_rfl hn

theorem nextPow2Loop_pow (x : ℕ) : ∀ n, (∃ k, n = 2 ^ k) → ∃ k, nextPow2Loop x n = 2 ^ k := by
  have key : ∀ d n, x + 1 - n ≤ d → (∃ k, n = 2 ^ k) → ∃ k, nextPow2Loop x n = 2 ^ k := by
    intro d
    induction d with
    | zero =>
        intro n h hk
        rw [nextPow2Loop]
        split
        · next hc => omega
        · next hc => exact hk
    | succ d ih =>
        intro n h hk
        obtain ⟨k, rfl⟩ := hk
        rw [nextPow2Loop]
        split
        · next hc =>
            refine ih (2 * 2 ^ k) (by omega) ⟨k + 1, ?_⟩
            ring
        · next hc => exact ⟨k, rfl⟩
  intro n hk
  exact key (x + 1 - n) n le_rfl hk

theorem nextPow2Loop_le (x : ℕ) : ∀ n, 0 < n → n ≤ x → nextPow2Loop x n ≤ 2 * x := by
  have key : ∀ d n, x + 1 - n ≤ d → 0 < n → n ≤ x → nextPow2Loop x n ≤ 2 * x := by
    intro d
    induction d with
    | zero => intro n h hn hnx; omega
    | succ d ih =>
        intro n h hn hnx
        rw [nextPow2Loop]
        rw [dif_pos ⟨hnx, hn⟩]
        by_cases h2 : 2 * n ≤ x
        · exact ih (2 * n) (by omega) (by omega) h2
        · rw [nextPow2Loop]
          have hng : ¬(2 * n ≤ x ∧ 0 < 2 * n) := by omega
          rw [dif_neg hng]; omega
  intro n hn hnx
  exact key (x + 1 - n) n le_rfl hn hnx

/-- **C3** (confirmed). For every input length `n ≥ 2` that is not a power of
two (as decided by the source's `isPowerOf2`), the working size
`m = getNextPowerOf2(2n - 3)` chosen by `fftBluestein` is the least power of
two that is greater than or equal to `2n - 3`. -/
theorem claim3_bluestein_working_size (n : ℕ) (h2 : 2 ≤ n) (hp : isPowerOf2 n = false) :
    IsLeast {p : ℕ | (∃ k, p = 2 ^ k) ∧ 2 * n - 3 ≤ p} (bluesteinM n) := by
  have hn3 : 3 ≤ n := by
    rcases Nat.lt_or_ge n 3 with h | h
    · interval_cases n
      · exact absurd hp (by decide)
    · exact h
  set y := 2 * n - 3 with hy
  have hy3 : 3 ≤ y := by omega
  have hyodd : y % 2 = 1 := by omega
  have hgt : y < bluesteinM n := nextPow2Loop_gt y 1 one_pos
  have hpow : ∃ k, bluesteinM n = 2 ^ k := nextPow2Loop_pow y 1 ⟨0, rfl⟩
  have hle : bluesteinM n ≤ 2 * y := nextPow2Loop_le y 1 one_pos (by omega)
  constructor
  · exact ⟨hpow, le_of_lt hgt⟩
  · rintro p ⟨⟨j, rfl⟩, hyp⟩
    by_contra hcon
    push_neg at hcon
    obtain ⟨t, ht⟩ := hpow
    rw [ht] at hcon hle
    have hjt : j < t := (Nat.pow_lt_pow_iff_right (by norm_num)).mp hcon
    have h2j : 2 ^ (j + 1) ≤ 2 ^ t := Nat.pow_le_pow_right (by norm_num) hjt
    have hjy : 2 ^ j ≤ y := by
      have : 2 * 2 ^ j ≤ 2 * y := by
        calc 2 * 2 ^ j = 2 ^ (j + 1) := by ring
        _ ≤ 2 ^ t := h2j
        _ ≤ 2 * y := hle
      omega
    have hyeq : y = 2 ^ j := le_antisymm hyp hjy
    rcases j with _ | j
    · simp at hyeq; omega
    · have : (2 : ℕ) ^ (j + 1) = 2 * 2 ^ j := by ring
      omega

/-- Concrete instance of C3: `n = 3` is at least 2, is not a power of two,
and the working size `bluesteinM 3 = 4` is the least power of two ≥ 3. -/
theorem claim3_witness :
    2 ≤ 3 ∧ isPowerOf2 3 = false ∧
      IsLeast {p : ℕ | (∃ k, p = 2 ^ k) ∧ 2 * 3 - 3 ≤ p} (bluesteinM 3) :=
  ⟨by norm_num, by decide, claim3_bluestein_working_size 3 (by norm_num) (by decide)⟩

/-! ## Claim C2: the bit-reversal permutation -/

theorem bitRevSpec_lt : ∀ k j, bitRevSpec k j < 2 ^ k := by
  intro k
  induction k with
  | zero => intro j; simp [bitRevSpec]
  | succ k ih =>
      intro j
      have h1 : j % 2 ≤ 1 := by omega
      have h2 : bitRevSpec k (j / 2) < 2 ^ k := ih (j / 2)
      have h3 : (2 : ℕ) ^ (k + 1) = 2 ^ k + 2 ^ k := by ring
      calc bitRevSpec (k + 1) j = j % 2 * 2 ^ k + bitRevSpec k (j / 2) := rfl
        _ ≤ 1 * 2 ^ k + bitRevSpec k (j / 2) := by
              have := Nat.mul_le_mul_right (2 ^ k) h1
              omega
        _ < 2 ^ (k + 1) := by omega

theorem bitRevSpec_zero : ∀ k, bitRevSpec k 0 = 0 := by
  intro k
  induction k with
  | zero => rfl
  | succ k ih => simp [bitRevSpec, ih]

theorem land_two_pow_eq_zero {c k : ℕ} (h : c < 2 ^ k) : c &&& 2 ^ k = 0 := by
  rw [Nat.and_two_pow, Nat.testBit_lt_two_pow h]
  simp

theorem add_land_two_pow {c k : ℕ} (h : c < 2 ^ k) : (2 ^ k + c) &&& 2 ^ k = 2 ^ k := by
  rw [Nat.and_two_pow, Nat.testBit_two_pow_add_eq, Nat.testBit_lt_two_pow h]
  simp

theorem lor_two_pow_of_lt {c k : ℕ} (h : c < 2 ^ k) : c ||| 2 ^ k = 2 ^ k + c := by
  apply Nat.eq_of_testBit_eq
  intro j
  rcases lt_trichotomy j k with hj | rfl | hj
  · rw [Nat.testBit_lor, Nat.testBit_two_pow_of_ne (by omega),
        Nat.testBit_two_pow_add_gt hj]
    simp
  · rw [Nat.testBit_lor, Nat.testBit_two_pow_self, Nat.testBit_two_pow_add_eq,
        Nat.testBit_lt_two_pow h]
    simp
  · have h1 : c < 2 ^ j := lt_of_lt_of_le h (Nat.pow_le_pow_right (by norm_num) (by omega))
    have h2 : 2 ^ k + c < 2 ^ j := by
      have e : (2 : ℕ) ^ (k + 1) = 2 * 2 ^ k := by ring
      have h3 : (2 : ℕ) ^ (k + 1) ≤ 2 ^ j := Nat.pow_le_pow_right (by norm_num) (by omega)
      omega
    rw [Nat.testBit_lor, Nat.testBit_two_pow_of_ne (by omega),
        Nat.testBit_lt_two_pow h1, Nat.testBit_lt_two_pow h2]
    simp

/-- One bit-reversed increment: on the bit-reversed image of `j < 2^k`, the
carry loop started at the top bit `2^k / 2` produces the bit-reversed image
of `j + 1 (mod 2^k)`. -/
theorem ibr_step : ∀ k j, j < 2 ^ k →
    ibrLoop (bitRevSpec k j) (2 ^ k / 2) = bitRevSpec k ((j + 1) % 2 ^ k) := by
  intro k
  induction k with
  | zero =>
      intro j hj
      interval_cases j
      rw [ibrLoop]
      simp [bitRevSpec]
  | succ k ih =>
      intro j hj
      have hm : 2 ^ (k + 1) / 2 = 2 ^ k := by
        have e : (2 : ℕ) ^ (k + 1) = 2 * 2 ^ k := by ring
        omega
      have hb : bitRevSpec k (j / 2) < 2 ^ k := bitRevSpec_lt k (j / 2)
      rw [hm]
      rcases Nat.mod_two_eq_zero_or_one j with hj2 | hj2
      · -- even j: the top bit of the reversed image is clear; set it.
        have ha : bitRevSpec (k + 1) j = bitRevSpec k (j / 2) := by
          simp [bitRevSpec, hj2]
        rw [ha, ibrLoop, if_neg (by simp [land_two_pow_eq_zero hb]),
            lor_two_pow_of_lt hb]
        have hlt : j + 1 < 2 ^ (k + 1) := by
          have e : (2 : ℕ) ^ (k + 1) = 2 * 2 ^ k := by ring
          omega
        rw [Nat.mod_eq_of_lt hlt]
        have h1 : (j + 1) % 2 = 1 := by omega
        have h2 : (j + 1) / 2 = j / 2 := by omega
        simp [bitRevSpec, h1, h2]
      · -- odd j: clear the top bit and continue with the next bit down.
        have ha : bitRevSpec (k + 1) j = 2 ^ k + bitRevSpec k (j / 2) := by
          simp [bitRevSpec, hj2]
        have hne : (2 ^ k + bitRevSpec k (j / 2)) &&& 2 ^ k ≠ 0 := by
          rw [add_land_two_pow hb]
          positivity
        rw [ha, ibrLoop, if_pos hne, Nat.add_sub_cancel_left]
        have hrec := ih (j / 2) (by omega)
        rw [hrec]
        rcases Nat.lt_or_ge (j + 1) (2 ^ (k + 1)) with hlt | hge
        · have h0 : (j + 1) % 2 ^ (k + 1) = j + 1 := Nat.mod_eq_of_lt hlt
          have h1 : (j + 1) % 2 = 0 := by omega
          have h2 : (j + 1) / 2 = j / 2 + 1 := by omega
          have h3 : j / 2 + 1 < 2 ^ k := by
            have e : (2 : ℕ) ^ (k + 1) = 2 * 2 ^ k := by ring
            omega
          rw [Nat.mod_eq_of_lt h3, h0]
          simp [bitRevSpec, h1, h2]
        · -- j = 2^(k+1) - 1: wrap all the way around to 0.
          have hj1 : j + 1 = 2 ^ (k + 1) := by omega
          have h4 : j / 2 + 1 = 2 ^ k := by
            have e : (2 : ℕ) ^ (k + 1) = 2 * 2 ^ k := by ring
            omega
          rw [h4, Nat.mod_self, hj1, Nat.mod_self, bitRevSpec_zero, bitRevSpec_zero]

/-- After `j` bit-reversed increments from 0 the running index of
`copyBitReversed` is exactly the bit reversal of `j`. -/
theorem ibrIter_eq : ∀ k j, j < 2 ^ k → ibrIter (2 ^ k) j = bitRevSpec k j := by
  intro k j
  induction j with
  | zero => intro _; rw [ibrIter, Function.iterate_zero_apply, bitRevSpec_zero]
  | succ j ih =>
      intro hj
      have hj' : j < 2 ^ k := by omega
      have h1 : ibrIter (2 ^ k) (j + 1) =
          incrementBitReversed (ibrIter (2 ^ k) j) (2 ^ k) := by
        rw [ibrIter, Function.iterate_succ_apply', ibrIter]
      rw [h1, ih hj', incrementBitReversed, ibr_step k j hj', Nat.mod_eq_of_lt hj]

/-- **C2** (confirmed). For a working array of power-of-two length `n = 2^k`,
`copyBitReversed` places at each position `i2` the input element whose index
is the bit reversal of `i2` over `k` bits; equivalently, iterating
`incrementBitReversed` from 0 enumerates the bit-reversed indices in order
(`ibrIter n i2 = bitRevSpec k i2`). -/
theorem claim2_copy_bit_reversed (k : ℕ) (a1 : CArr) (i2 : ℕ)
    (hlen : a1.length = 2 ^ k) (hi : i2 < 2 ^ k) :
    (copyBitReversed a1).reAt i2 = a1.reAt (bitRevSpec k i2) ∧
      (copyBitReversed a1).imAt i2 = a1.imAt (bitRevSpec k i2) ∧
      ibrIter (2 ^ k) i2 = bitRevSpec k i2 := by
  have hiter := ibrIter_eq k i2 hi
  have hre : (copyBitReversed a1).re =
      (List.range (2 ^ k)).map (fun j => a1.reAt (ibrIter (2 ^ k) j)) := by
    simp [copyBitReversed, hlen]
  have him : (copyBitReversed a1).im =
      (List.range (2 ^ k)).map (fun j => a1.imAt (ibrIter (2 ^ k) j)) := by
    simp [copyBitReversed, hlen]
  refine ⟨?_, ?_, hiter⟩
  · rw [CArr.reAt, hre, List.getD_eq_getElem?_getD, List.getElem?_map,
        List.getElem?_range hi]
    simp [hiter]
  · rw [CArr.imAt, him, List.getD_eq_getElem?_getD, List.getElem?_map,
        List.getElem?_range hi]
    simp [hiter]

/-- Concrete instance of C2 at `n = 4`, `i2 = 1`: position 1 of the working
copy receives input element 2 (the reversal of `01` over 2 bits is `10`). -/
theorem claim2_witness :
    ((⟨[10, 11, 12, 13], [0, 1, 2, 3], 4⟩ : CArr).length = 2 ^ 2 ∧ 1 < 2 ^ 2) ∧
      (copyBitReversed ⟨[10, 11, 12, 13], [0, 1, 2, 3], 4⟩).reAt 1 =
        (⟨[10, 11, 12, 13], [0, 1, 2, 3], 4⟩ : CArr).reAt (bitRevSpec 2 1) :=
  ⟨⟨by norm_num, by norm_num⟩,
    (claim2_copy_bit_reversed 2 ⟨[10, 11, 12, 13], [0, 1, 2, 3], 4⟩ 1
      (by norm_num) (by norm_num)).1⟩

/-! ## Claim C6: odd-length input to `fftRealHalf` -/

/-- **C6 counterexample**. The claim states that *every* odd-length input
makes `fftRealHalf` raise the invalid-argument error, but the source checks
`x.length <= 1` first: the odd length 1 returns `new ComplexArray(x)`
without error. -/
theorem claim6_counterexample :
    fftRealHalf emptyCache [(5 : ℝ)] true = .ok (ofReal [(5 : ℝ)], emptyCache) := by
  rw [fftRealHalf, if_pos (by norm_num)]

/-- **C6 amended** (corrected). For every odd-length input of length greater
than 1, `fftRealHalf` raises the typed invalid-argument error
`"Input array size is not even."`. -/
theorem claim6_amended (c : Cache) (x : List ℝ) (inclNyquist : Bool)
    (h1 : 1 < x.length) (h2 : x.length % 2 = 1) :
    fftRealHalf c x inclNyquist =
      .error (.invalidArgument "Input array size is not even.") := by
  rw [fftRealHalf, if_neg (by omega), if_pos (by omega)]

/-- Concrete instance of amended C6: the odd length-3 input raises. -/
theorem claim6_witness :
    1 < ([1, 2, 3] : List ℝ).length ∧ ([1, 2, 3] : List ℝ).length % 2 = 1 ∧
      fftRealHalf emptyCache [1, 2, 3] false =
        .error (.invalidArgument "Input array size is not even.") :=
  ⟨by norm_num, by norm_num, claim6_amended emptyCache [1, 2, 3] false (by norm_num) (by norm_num)⟩

/-! ## Claim C7: the cached twiddle table -/

/-- **C7 counterexample**. The claim states that entry `k` of the radix-2
twiddle table for size `n` is `(cos(k·2π/n), sin(k·2π/n))`; but
`createCooleyTukeySineTable` passes `rotationalDirection = false`, so the
stored imaginary part is `-sin(k·2π/n)`. At `n = 4`, `k = 1` the table holds
`-1`, not `sin(π/2) = 1`. -/
theorem claim7_counterexample :
    (createCooleyTukeySineTable 4).imAt 1 ≠ Real.sin (1 * (2 * Real.pi / 4)) := by
  have h4 : ((4 : ℕ) : ℝ) = 4 := by norm_num
  simp only [createCooleyTukeySineTable, createSineTable, CArr.imAt, h4]
  norm_num [List.range_succ]
  have e : 2 * Real.pi / 4 = Real.pi / 2 := by ring
  rw [e, Real.sin_pi_div_two]
  norm_num

/-- **C7 amended** (corrected). For every power-of-two size `n = 2^k ≥ 2`,
the table is built on first request from the empty cache, has exactly `n/2`
entries, and entry `j` is `(cos(j·2π/n), -sin(j·2π/n))` — the imaginary part
is *negated* relative to the claim (`rotationalDirection = false`; the single
table serves both directions via the channel-swap trick). -/
theorem getD_map_range {α : Type} (f : ℕ → α) {n j : ℕ} (hj : j < n) (d : α) :
    ((List.range n).map f).getD j d = f j := by
  rw [List.getD_eq_getElem?_getD, List.getElem?_map, List.getElem?_range hj]
  rfl

theorem getD_map_range_ge {α : Type} (f : ℕ → α) {n j : ℕ} (hj : n ≤ j) (d : α) :
    ((List.range n).map f).getD j d = d := by
  rw [List.getD_eq_getElem?_getD, List.getElem?_eq_none (by simpa using hj)]
  rfl

theorem claim7_amended (n k : ℕ) (_hk : n = 2 ^ k) (_h1 : 1 ≤ k) :
    (getCachedCooleyTukeySineTable emptyCache n).1 = createCooleyTukeySineTable n ∧
      (createCooleyTukeySineTable n).length = n / 2 ∧
      (createCooleyTukeySineTable n).re.length = n / 2 ∧
      (createCooleyTukeySineTable n).im.length = n / 2 ∧
      ∀ j, j < n / 2 →
        (createCooleyTukeySineTable n).reAt j = Real.cos (j * (2 * Real.pi / n)) ∧
          (createCooleyTukeySineTable n).imAt j = -Real.sin (j * (2 * Real.pi / n)) := by
  refine ⟨?_, ?_, ?_, ?_, ?_⟩
  · simp [getCachedCooleyTukeySineTable, emptyCache]
  · rfl
  · simp only [createCooleyTukeySineTable, createSineTable, List.length_map, List.length_range]
  · simp only [createCooleyTukeySineTable, createSineTable, List.length_map, List.length_range]
  · intro j hj
    constructor
    · show ((List.range (n / 2)).map
          (fun i : ℕ => Real.cos (i * (2 * Real.pi / (n : ℝ))))).getD j 0 = _
      rw [getD_map_range _ hj]
    · show ((List.range (n / 2)).map
          (fun i : ℕ => if (false : Bool) then Real.sin (i * (2 * Real.pi / (n : ℝ)))
            else -Real.sin (i * (2 * Real.pi / (n : ℝ))))).getD j 0 = _
      rw [getD_map_range _ hj]
      simp

/-- Concrete instance of amended C7 at `n = 2`: one entry, and its value is
`(cos 0, -sin 0) = (1, 0)`. -/
theorem claim7_witness :
    (2 : ℕ) = 2 ^ 1 ∧ (createCooleyTukeySineTable 2).length = 2 / 2 :=
  ⟨by norm_num, (claim7_amended 2 1 (by norm_num) le_rfl).2.1⟩

/-! ## Claim C4: the inverse transform via channel swapping -/

/-- The channel-swap identity at every nesting depth: regardless of how the
branch dispatches, both sides run the same strategy on the same value
`swapReIm x` with the same cache. -/
theorem fftS_inverse_swap (fuel : ℕ) (c : Cache) (x : CArr) (h : x.wf) :
    fftS fuel c x false =
      (swapReIm ((fftS fuel c (swapReIm x) true).1), (fftS fuel c (swapReIm x) true).2) := by
  conv_lhs => rw [fftS]
  conv_rhs => rw [fftS]
  by_cases hle : x.length ≤ 1
  · have hle2 : (swapReIm x).length ≤ 1 := hle
    rw [if_pos hle, if_pos hle2]
    obtain ⟨h1, h2⟩ := h
    simp [CArr.slice, swapReIm, h1, h2]
  · have hle2 : ¬ (swapReIm x).length ≤ 1 := hle
    rw [if_neg hle, if_neg hle2]
    rfl

/-- **C4** (confirmed). For every well-formed complex sequence `x`, the
inverse transform `fft(x, false)` equals (elementwise, and with the same
final cache) the channel swap of the forward transform applied to the channel
swap of `x`. -/
theorem claim4_inverse_by_channel_swap (c : Cache) (x : CArr) (h : x.wf) :
    (fft c x false).1 = swapReIm ((fft c (swapReIm x) true).1) ∧
      (fft c x false).2 = (fft c (swapReIm x) true).2 := by
  rw [fft, fft, fftS_inverse_swap fftFuel c x h]
  exact ⟨rfl, rfl⟩

/-- Concrete instance of C4 on the length-2 sequence `[1+3i, 2+4i]`. -/
theorem claim4_witness :
    (⟨[1, 2], [3, 4], 2⟩ : CArr).wf ∧
      (fft emptyCache ⟨[1, 2], [3, 4], 2⟩ false).1 =
        swapReIm ((fft emptyCache (swapReIm ⟨[1, 2], [3, 4], 2⟩) true).1) :=
  ⟨⟨rfl, rfl⟩, (claim4_inverse_by_channel_swap emptyCache ⟨[1, 2], [3, 4], 2⟩ ⟨rfl, rfl⟩).1⟩

/-! ## Claim C5: length and normalization of `fftRealSpectrum` -/

theorem scaleSpectrum_reAt (a : CArr) (n i : ℕ) (hi : i < a.length) :
    (scaleSpectrum a n).reAt i = a.reAt i * normFactor n i := by
  show ((List.range a.length).map (fun (i : ℕ) => a.reAt i * normFactor n i)).getD i 0 = _
  rw [getD_map_range _ hi]

theorem scaleSpectrum_imAt (a : CArr) (n i : ℕ) (hi : i < a.length) :
    (scaleSpectrum a n).imAt i = a.imAt i * normFactor n i := by
  show ((List.range a.length).map (fun (i : ℕ) => a.imAt i * normFactor n i)).getD i 0 = _
  rw [getD_map_range _ hi]

/-- **C5** (confirmed). For every non-empty real input, `fftRealSpectrum`
succeeds and returns exactly the unnormalized lower-half transform with the
normalization loop applied; the returned length is `N/2 + 1` when
`inclNyquist` and `N` even, `⌈N/2⌉` otherwise; and every returned bin `i` is
the corresponding unnormalized bin multiplied by `normFactor N i`, which is
`1/N` for bin 0 and (when present) bin `N/2`, and `2/N` for every other bin. -/
theorem claim5_real_spectrum_normalization (c : Cache) (xs : List ℝ) (incl : Bool)
    (h : 0 < xs.length) :
    fftRealSpectrum c xs incl =
      .ok (scaleSpectrum (lowerHalfUnnormalized c xs incl).1 xs.length,
           (lowerHalfUnnormalized c xs incl).2) ∧
      (scaleSpectrum (lowerHalfUnnormalized c xs incl).1 xs.length).length =
        (if xs.length % 2 = 0 ∧ incl = true then xs.length / 2 + 1
         else (xs.length + 1) / 2) ∧
      ∀ i, i < (scaleSpectrum (lowerHalfUnnormalized c xs incl).1 xs.length).length →
        (scaleSpectrum (lowerHalfUnnormalized c xs incl).1 xs.length).reAt i =
            (lowerHalfUnnormalized c xs incl).1.reAt i * normFactor xs.length i ∧
          (scaleSpectrum (lowerHalfUnnormalized c xs incl).1 xs.length).imAt i =
            (lowerHalfUnnormalized c xs incl).1.imAt i * normFactor xs.length i := by
  refine ⟨?_, ?_, ?_⟩
  · by_cases he : xs.length % 2 = 0
    · have hok : fftRealHalf c xs incl =
          .ok (realHalfRecombine (fft c (packPairs xs (xs.length / 2)) true).1
                 (xs.length / 2) incl,
               (fft c (packPairs xs (xs.length / 2)) true).2) := by
        rw [fftRealHalf, if_neg (by omega), if_neg (by omega)]
      rw [fftRealSpectrum, if_neg (by omega), if_pos he, hok,
          lowerHalfUnnormalized, if_pos he, hok]
    · rw [fftRealSpectrum, if_neg (by omega), if_neg he, lowerHalfUnnormalized, if_neg he]
  · by_cases he : xs.length % 2 = 0
    · have hok : fftRealHalf c xs incl =
          .ok (realHalfRecombine (fft c (packPairs xs (xs.length / 2)) true).1
                 (xs.length / 2) incl,
               (fft c (packPairs xs (xs.length / 2)) true).2) := by
        rw [fftRealHalf, if_neg (by omega), if_neg (by omega)]
      rw [lowerHalfUnnormalized, if_pos he, hok]
      cases incl
      · show xs.length / 2 + 0 = _
        rw [if_neg (by simp)]
        omega
      · show xs.length / 2 + 1 = _
        rw [if_pos (⟨he, rfl⟩ : xs.length % 2 = 0 ∧ true = true)]
    · rw [lowerHalfUnnormalized, if_neg he]
      show (xs.length / 2 + 1 - 0) = _
      rw [if_neg (fun hc => he hc.1)]
      omega
  · intro i hi
    exact ⟨scaleSpectrum_reAt _ _ _ hi, scaleSpectrum_imAt _ _ _ hi⟩

/-- Concrete instance of C5 on the non-empty even-length input `[1, 2]`. -/
theorem claim5_witness :
    0 < ([1, 2] : List ℝ).length ∧
      fftRealSpectrum emptyCache [1, 2] true =
        .ok (scaleSpectrum (lowerHalfUnnormalized emptyCache [1, 2] true).1
               ([1, 2] : List ℝ).length,
             (lowerHalfUnnormalized emptyCache [1, 2] true).2) :=
  ⟨by norm_num,
    (claim5_real_spectrum_normalization emptyCache [1, 2] true (by norm_num)).1⟩

/-! ## Claim C8: the twiddle-factor cache is the only persistent state and is
append-only -/

theorem cacheEvolves_refl (c : Cache) : cacheEvolves c c :=
  fun _ => Or.inl rfl

theorem cacheEvolves_trans {c1 c2 c3 : Cache}
    (h12 : cacheEvolves c1 c2) (h23 : cacheEvolves c2 c3) : cacheEvolves c1 c3 := by
  intro j
  rcases h23 j with h | ⟨hb, t, ht⟩
  · rcases h12 j with h' | ⟨ha, t, ht⟩
    · exact Or.inl (h.trans h')
    · exact Or.inr ⟨ha, t, h.trans ht⟩
  · rcases h12 j with h' | ⟨ha, t', ht'⟩
    · exact Or.inr ⟨h'.symm.trans hb, t, ht⟩
    · rw [ht'] at hb
      exact absurd hb (by simp)

theorem getCached_evolves (c : Cache) (n : ℕ) :
    cacheEvolves c (getCachedCooleyTukeySineTable c n).2 := by
  rw [getCachedCooleyTukeySineTable]
  cases hc : c (floorLog2 n) with
  | some t => exact cacheEvolves_refl c
  | none =>
      intro j
      by_cases hj : j = floorLog2 n
      · subst hj
        exact Or.inr ⟨hc, createCooleyTukeySineTable n, by simp⟩
      · exact Or.inl (by simp [hj])

theorem fftCooleyTukeyS_evolves (c : Cache) (x : CArr) :
    cacheEvolves c (fftCooleyTukeyS c x).2 :=
  getCached_evolves c x.length

theorem convolveWith_evolves (f : Cache → CArr → Bool → CArr × Cache)
    (hf : ∀ c x d, cacheEvolves c (f c x d).2) (c : Cache) (a1 a2 : CArr) :
    cacheEvolves c (convolveWith f c a1 a2).2 := by
  rw [convolveWith]
  by_cases hne : a2.length ≠ a1.length
  · rw [if_pos hne]; exact cacheEvolves_refl c
  · rw [if_neg hne]
    exact cacheEvolves_trans (cacheEvolves_trans (hf c a1 true) (hf _ a2 true)) (hf _ _ false)

theorem fftBluesteinWith_evolves (f : Cache → CArr → Bool → CArr × Cache)
    (hf : ∀ c x d, cacheEvolves c (f c x d).2) (c : Cache) (x : CArr) :
    cacheEvolves c (fftBluesteinWith f c x).2 :=
  convolveWith_evolves f hf c _ _

theorem fftS_evolves : ∀ (fuel : ℕ) (c : Cache) (x : CArr) (d : Bool),
    cacheEvolves c (fftS fuel c x d).2 := by
  intro fuel
  induction fuel with
  | zero =>
      intro c x d
      rw [fftS]
      by_cases hle : x.length ≤ 1
      · rw [if_pos hle]; exact cacheEvolves_refl c
      · rw [if_neg hle]
        by_cases hp : isPowerOf2 x.length
        · simp only [if_pos hp]
          exact fftCooleyTukeyS_evolves c _
        · simp only [if_neg hp]
          exact cacheEvolves_refl c
  | succ f ih =>
      intro c x d
      rw [fftS]
      by_cases hle : x.length ≤ 1
      · rw [if_pos hle]; exact cacheEvolves_refl c
      · rw [if_neg hle]
        by_cases hp : isPowerOf2 x.length
        · simp only [if_pos hp]
          exact fftCooleyTukeyS_evolves c _
        · simp only [if_neg hp]
          exact fftBluesteinWith_evolves _ ih c _

theorem fftRealHalf_evolves (c : Cache) (xs : List ℝ) (incl : Bool) :
    cacheEvolves c (errCache c (fftRealHalf c xs incl)) := by
  rw [fftRealHalf]
  by_cases h1 : xs.length ≤ 1
  · rw [if_pos h1]; exact cacheEvolves_refl c
  · rw [if_neg h1]
    by_cases h2 : xs.length % 2 ≠ 0
    · rw [if_pos h2]; exact cacheEvolves_refl c
    · rw [if_neg h2]
      exact fftS_evolves fftFuel c _ true

theorem fftRealSpectrum_evolves (c : Cache) (xs : List ℝ) (incl : Bool) :
    cacheEvolves c (errCache c (fftRealSpectrum c xs incl)) := by
  rw [fftRealSpectrum]
  by_cases h0 : xs.length = 0
  · rw [if_pos h0]; exact cacheEvolves_refl c
  · rw [if_neg h0]
    by_cases h2 : xs.length % 2 = 0
    · rw [if_pos h2]
      have hrh := fftRealHalf_evolves c xs incl
      cases h : fftRealHalf c xs incl with
      | error e => exact cacheEvolves_refl c
      | ok p =>
          rw [h] at hrh
          exact hrh
    · rw [if_neg h2]
      exact fftS_evolves fftFuel c _ true

theorem iFftRealHalfSimple_evolves (c : Cache) (x : CArr) (len : ℤ) (incl : Bool) :
    cacheEvolves c (iFftRealHalfSimple c x len incl).2 := by
  rw [iFftRealHalfSimple]
  by_cases h : x.length = 0 ∨ len ≤ 0
  · rw [if_pos h]; exact cacheEvolves_refl c
  · rw [if_neg h]
    exact fftS_evolves fftFuel c _ false

theorem iFftRealHalfOpt_evolves (c : Cache) (x : CArr) (len : ℤ) (incl : Bool) :
    cacheEvolves c (errCache c (iFftRealHalfOpt c x len incl)) := by
  rw [iFftRealHalfOpt]
  by_cases h1 : len ≤ 0
  · rw [if_pos h1]; exact cacheEvolves_refl c
  · rw [if_neg h1]
    by_cases h2 : len % 2 ≠ 0
    · rw [if_pos h2]; exact cacheEvolves_refl c
    · rw [if_neg h2]
      exact fftS_evolves fftFuel c _ false

/-- **C8** (confirmed). Every public operation threads the twiddle-factor
cache append-only: after any call the cache holds every entry it held before,
unchanged, and at most gains tables in previously unset slots
(`cacheEvolves`); calls that throw leave it untouched. In this embedding the
input arrays are immutable values and every in-place loop of the source works
on arrays freshly allocated by the call itself, so the cache is the only
pre-existing state any call can affect; `fftShift` does not touch the cache
at all (its embedding `fftShift : CArr → CArr` takes no cache argument). -/
theorem claim8_cache_append_only (c : Cache) (x : CArr) (d : Bool) (xs : List ℝ)
    (incl : Bool) (spec : CArr) (len : ℤ) :
    cacheEvolves c (fft c x d).2 ∧
      cacheEvolves c (errCache c (fftRealHalf c xs incl)) ∧
      cacheEvolves c (errCache c (fftRealSpectrum c xs incl)) ∧
      cacheEvolves c (iFftRealHalfSimple c spec len incl).2 ∧
      cacheEvolves c (errCache c (iFftRealHalfOpt c spec len incl)) :=
  ⟨fftS_evolves fftFuel c x d, fftRealHalf_evolves c xs incl,
    fftRealSpectrum_evolves c xs incl, iFftRealHalfSimple_evolves c spec len incl,
    iFftRealHalfOpt_evolves c spec len incl⟩

/-! ## Claim C10: degenerate output lengths of the inverse codecs -/

/-- **C10** (confirmed). For `outputLength ≤ 0` both inverse functions return
the empty real array without raising (`iFftRealHalfOpt` tests `len <= 0`
before the parity test, so a negative odd length does not raise), and
`iFftRealHalfSimple` also returns the empty array whenever the spectrum is
empty. -/
theorem claim10_degenerate_lengths (c : Cache) (x : CArr) (inclNyquist : Bool) (len : ℤ) :
    (len ≤ 0 →
        iFftRealHalfSimple c x len inclNyquist = ([], c) ∧
          iFftRealHalfOpt c x len inclNyquist = .ok ([], c)) ∧
      (x.length = 0 → iFftRealHalfSimple c x len inclNyquist = ([], c)) := by
  constructor
  · intro h
    constructor
    · rw [iFftRealHalfSimple, if_pos (Or.inr h)]
    · rw [iFftRealHalfOpt, if_pos h]
  · intro h
    rw [iFftRealHalfSimple, if_pos (Or.inl h)]

/-- Concrete instance of C10 at the negative odd length `-3`: both functions
return the empty array and no error is raised. -/
theorem claim10_witness :
    iFftRealHalfSimple emptyCache (zeroArr 1) (-3) true = ([], emptyCache) ∧
      iFftRealHalfOpt emptyCache (zeroArr 1) (-3) true = .ok ([], emptyCache) :=
  (claim10_degenerate_lengths emptyCache (zeroArr 1) true (-3)).1 (by norm_num)

/-! ## Claim C9 groundwork: roots of unity and Fourier inversion -/

theorem zetaC_ne_zero (n : ℕ) : zetaC n ≠ 0 :=
  Complex.exp_ne_zero _

theorem zetaC_pow_self (n : ℕ) (hn : 0 < n) : zetaC n ^ n = 1 := by
  rw [zetaC, ← Complex.exp_nat_mul]
  have hn0 : (n : ℂ) ≠ 0 := Nat.cast_ne_zero.mpr hn.ne'
  have h : (n : ℂ) * (2 * Real.pi * Complex.I / n) = 2 * Real.pi * Complex.I := by
    rw [mul_comm]
    exact div_mul_cancel₀ _ hn0
  rw [h, Complex.exp_two_pi_mul_I]

theorem zetaC_zpow_self (n : ℕ) (hn : 0 < n) : zetaC n ^ (n : ℤ) = 1 := by
  rw [zpow_natCast]
  exact zetaC_pow_self n hn

theorem zetaC_zpow_eq_one_iff (n : ℕ) (hn : 0 < n) (d : ℤ) :
    zetaC n ^ d = 1 ↔ (n : ℤ) ∣ d :=
  (Complex.isPrimitiveRoot_exp n hn.ne').zpow_eq_one_iff_dvd d

theorem zetaC_orth (n : ℕ) (hn : 0 < n) (d : ℤ) :
    ∑ j ∈ Finset.range n, zetaC n ^ (d * j) = if (n : ℤ) ∣ d then (n : ℂ) else 0 := by
  by_cases hd : (n : ℤ) ∣ d
  · rw [if_pos hd]
    have h1 : ∀ j ∈ Finset.range n, zetaC n ^ (d * (j : ℤ)) = 1 := by
      intro j _
      rw [zpow_mul, (zetaC_zpow_eq_one_iff n hn d).mpr hd, one_zpow]
    rw [Finset.sum_congr rfl h1, Finset.sum_const, Finset.card_range]
    simp
  · rw [if_neg hd]
    have hne : zetaC n ^ d ≠ 1 := fun h => hd ((zetaC_zpow_eq_one_iff n hn d).mp h)
    have hstep : ∀ j : ℕ, zetaC n ^ (d * j) = (zetaC n ^ d) ^ j := by
      intro j
      rw [zpow_mul, zpow_natCast]
    rw [Finset.sum_congr rfl (fun j _ => hstep j), geom_sum_eq hne n]
    have hnum : (zetaC n ^ d) ^ n = 1 := by
      rw [← zpow_natCast (zetaC n ^ d) n, ← zpow_mul, mul_comm, zpow_mul,
          zetaC_zpow_self n hn, one_zpow]
    rw [hnum]
    simp

theorem int_eq_zero_of_dvd_of_abs_lt {n m : ℤ} (hd : n ∣ m) (h : |m| < n) : m = 0 := by
  obtain ⟨c, rfl⟩ := hd
  rcases eq_or_ne c 0 with rfl | hc
  · ring
  · exfalso
    have h1 : 1 ≤ |c| := Int.one_le_abs (by omega)
    have h2 : |n * c| = |n| * |c| := abs_mul n c
    have h3 : 0 < n := lt_of_le_of_lt (abs_nonneg _) h
    have h4 : |n| = n := abs_of_pos h3
    have h5 : n * 1 ≤ n * |c| := mul_le_mul_of_nonneg_left h1 (by omega)
    rw [h2, h4] at h
    linarith

theorem dft_inversion (f : ℕ → ℂ) (n : ℕ) (hn : 0 < n) (p : ℕ) (hp : p < n) :
    idftC (fun j => dftC f n j) n p = n * f p := by
  unfold idftC dftC
  have hz := zetaC_ne_zero n
  calc ∑ j ∈ Finset.range n, (∑ t ∈ Finset.range n, f t * zetaC n ^ (-(j * t : ℤ))) *
          zetaC n ^ ((p * j : ℕ) : ℤ)
      = ∑ j ∈ Finset.range n, ∑ t ∈ Finset.range n,
          f t * zetaC n ^ (((p : ℤ) - t) * j) := by
        refine Finset.sum_congr rfl fun j _ => ?_
        rw [Finset.sum_mul]
        refine Finset.sum_congr rfl fun t _ => ?_
        rw [mul_assoc, ← zpow_add₀ hz]
        congr 1
        push_cast
        ring
    _ = ∑ t ∈ Finset.range n, f t * ∑ j ∈ Finset.range n,
          zetaC n ^ (((p : ℤ) - t) * j) := by
        rw [Finset.sum_comm]
        refine Finset.sum_congr rfl fun t _ => ?_
        rw [Finset.mul_sum]
    _ = ∑ t ∈ Finset.range n, f t * (if t = p then (n : ℂ) else 0) := by
        refine Finset.sum_congr rfl fun t ht => ?_
        rw [zetaC_orth n hn]
        congr 1
        have htn : t < n := Finset.mem_range.mp ht
        by_cases hte : t = p
        · subst hte
          simp
        · rw [if_neg ?_, if_neg hte]
          intro hdvd
          have h0 : (p : ℤ) - t = 0 :=
            int_eq_zero_of_dvd_of_abs_lt hdvd (by
              rw [abs_sub_lt_iff]
              constructor <;> [skip; skip] <;> omega)
          exact hte (by omega)
    _ = n * f p := by
        simp only [mul_ite, mul_zero]
        rw [Finset.sum_ite_eq' (Finset.range n) p (fun t => f t * n),
            if_pos (Finset.mem_range.mpr hp)]
        ring

/-! ## Claim C9: exact correctness of the embedded transforms and the round trip -/

theorem getD_set_self {l : List ℝ} {i : ℕ} {v : ℝ} (h : i < l.length) :
    (l.set i v).getD i 0 = v := by
  rw [List.getD_eq_getElem?_getD, List.getElem?_set_self h]
  rfl

theorem getD_set_ne {l : List ℝ} {i j : ℕ} (h : i ≠ j) (v : ℝ) :
    (l.set i v).getD j 0 = l.getD j 0 := by
  rw [List.getD_eq_getElem?_getD, List.getElem?_set_ne h, ← List.getD_eq_getElem?_getD]

theorem setMul_toC (r1 i1 r2 i2 : ℝ) :
    ((⟨(setMul r1 i1 r2 i2).1, (setMul r1 i1 r2 i2).2⟩ : ℂ)) =
      (⟨r1, i1⟩ : ℂ) * (⟨r2, i2⟩ : ℂ) := by
  apply Complex.ext
  · simp [setMul, Complex.mul_re]
  · simp [setMul, Complex.mul_im]

theorem butterflyPair_lengths (w : ℝ × ℝ) (mMax : ℕ) (a : CArr) (i : ℕ) :
    (butterflyPair w mMax a i).re.length = a.re.length ∧
      (butterflyPair w mMax a i).im.length = a.im.length ∧
      (butterflyPair w mMax a i).length = a.length := by
  simp [butterflyPair, CArr.setRe, CArr.setIm]

theorem butterflyPair_toC (w : ℝ × ℝ) (mMax : ℕ) (a : CArr) (i n : ℕ)
    (hre : a.re.length = n) (him : a.im.length = n)
    (hin : i + mMax < n) (hm : 0 < mMax) (p : ℕ) :
    (butterflyPair w mMax a i).toC p =
      if p = i then a.toC i + (⟨w.1, w.2⟩ : ℂ) * a.toC (i + mMax)
      else if p = i + mMax then a.toC i - (⟨w.1, w.2⟩ : ℂ) * a.toC (i + mMax)
      else a.toC p := by
  have hij : i ≠ i + mMax := by omega
  have hi : i < a.re.length := by omega
  have hi2 : i < a.im.length := by omega
  have hj : i + mMax < a.re.length := by omega
  have hj2 : i + mMax < a.im.length := by omega
  by_cases hpi : p = i
  · subst hpi
    rw [if_pos rfl]
    simp only [butterflyPair, CArr.setRe, CArr.setIm, CArr.reAt, CArr.imAt, CArr.toC]
    rw [getD_set_self (by simpa using hi), getD_set_self (by simpa using hi2),
        getD_set_ne (Ne.symm hij), getD_set_ne (Ne.symm hij)]
    apply Complex.ext
    · simp only [setMul, Complex.add_re, Complex.mul_re, CArr.reAt, CArr.imAt]
      ring
    · simp only [setMul, Complex.add_im, Complex.mul_im, CArr.reAt, CArr.imAt]
      ring
  · by_cases hpj : p = i + mMax
    · subst hpj
      rw [if_neg hpi, if_pos rfl]
      simp only [butterflyPair, CArr.setRe, CArr.setIm, CArr.reAt, CArr.imAt, CArr.toC]
      rw [getD_set_ne (fun h => hpi h.symm), getD_set_ne (fun h => hpi h.symm),
          getD_set_self (by simpa using hj), getD_set_self (by simpa using hj2)]
      apply Complex.ext
      · simp only [setMul, Complex.sub_re, Complex.mul_re, CArr.reAt, CArr.imAt]
        ring
      · simp only [setMul, Complex.sub_im, Complex.mul_im, CArr.reAt, CArr.imAt]
        ring
    · rw [if_neg hpi, if_neg hpj]
      simp only [butterflyPair, CArr.setRe, CArr.setIm, CArr.reAt, CArr.imAt, CArr.toC]
      rw [getD_set_ne (fun h => hpi h.symm), getD_set_ne (fun h => hpi h.symm),
          getD_set_ne (fun h => hpj h.symm), getD_set_ne (fun h => hpj h.symm)]

theorem innerFold_lengths (w : ℝ × ℝ) (mMax step : ℕ) :
    ∀ (cnt m : ℕ) (a : CArr),
      ((List.range' m cnt step).foldl (butterflyPair w mMax) a).re.length = a.re.length ∧
        ((List.range' m cnt step).foldl (butterflyPair w mMax) a).im.length = a.im.length := by
  intro cnt
  induction cnt with
  | zero => intro m a; simp
  | succ cnt ih =>
      intro m a
      rw [List.range'_succ, List.foldl_cons]
      have h1 := butterflyPair_lengths w mMax a m
      have h2 := ih (m + step) (butterflyPair w mMax a m)
      exact ⟨h2.1.trans h1.1, h2.2.trans h1.2.1⟩

theorem innerFold_other (w : ℝ × ℝ) (mMax step n : ℕ) (hm : 0 < mMax)
    (hstep : step = mMax * 2) :
    ∀ (cnt m : ℕ) (a : CArr), a.re.length = n → a.im.length = n →
      (∀ t, t < cnt → m + t * step + mMax < n) →
      ∀ p, (∀ t, t < cnt → p ≠ m + t * step ∧ p ≠ m + t * step + mMax) →
      ((List.range' m cnt step).foldl (butterflyPair w mMax) a).toC p = a.toC p := by
  intro cnt
  induction cnt with
  | zero => intro m a _ _ _ p _; simp
  | succ cnt ih =>
      intro m a hre him hbound p hp
      rw [List.range'_succ, List.foldl_cons]
      have hbp := butterflyPair_lengths w mMax a m
      have hrest : ∀ t, t < cnt → (m + step) + t * step + mMax < n := by
        intro t ht
        have h1 := hbound (t + 1) (by omega)
        have h2 : (t + 1) * step = t * step + step := by ring
        omega
      have hprest : ∀ t, t < cnt → p ≠ (m + step) + t * step ∧ p ≠ (m + step) + t * step + mMax := by
        intro t ht
        have h1 := hp (t + 1) (by omega)
        have h2 : (t + 1) * step = t * step + step := by ring
        omega
      rw [ih (m + step) (butterflyPair w mMax a m) (hbp.1.trans hre) (hbp.2.1.trans him)
            hrest p hprest]
      rw [butterflyPair_toC w mMax a m n hre him (by have h1 := hbound 0 (by omega); have h2 : 0 * step = 0 := Nat.zero_mul step; omega) hm p]
      have h0 := hp 0 (by omega)
      rw [if_neg (by omega), if_neg (by omega)]

theorem innerFold_top (w : ℝ × ℝ) (mMax step n : ℕ) (hm : 0 < mMax)
    (hstep : step = mMax * 2) :
    ∀ (cnt m : ℕ) (a : CArr), a.re.length = n → a.im.length = n →
      (∀ t, t < cnt → m + t * step + mMax < n) →
      ∀ t, t < cnt →
      ((List.range' m cnt step).foldl (butterflyPair w mMax) a).toC (m + t * step) =
        a.toC (m + t * step) + (⟨w.1, w.2⟩ : ℂ) * a.toC (m + t * step + mMax) := by
  intro cnt
  induction cnt with
  | zero => intro m a _ _ _ t ht; omega
  | succ cnt ih =>
      intro m a hre him hbound t ht
      rw [List.range'_succ, List.foldl_cons]
      have hbp := butterflyPair_lengths w mMax a m
      have hrest : ∀ u, u < cnt → (m + step) + u * step + mMax < n := by
        intro u hu
        have h1 := hbound (u + 1) (by omega)
        have h2 : (u + 1) * step = u * step + step := by ring
        omega
      rcases Nat.eq_zero_or_pos t with rfl | ht0
      · have hother : ∀ u, u < cnt →
            (m + 0 * step) ≠ (m + step) + u * step ∧
              (m + 0 * step) ≠ (m + step) + u * step + mMax := by
          intro u hu
          omega
        rw [innerFold_other w mMax step n hm hstep cnt (m + step) (butterflyPair w mMax a m)
              (hbp.1.trans hre) (hbp.2.1.trans him) hrest _ hother]
        have hp := butterflyPair_toC w mMax a m n hre him
          (by have h1 := hbound 0 (by omega); have h2 : 0 * step = 0 := Nat.zero_mul step; omega) hm (m + 0 * step)
        rw [hp, if_pos (by have h2 : 0 * step = 0 := Nat.zero_mul step; omega)]
        norm_num
      · obtain ⟨u, rfl⟩ : ∃ u, t = u + 1 := ⟨t - 1, by omega⟩
        have harith : m + (u + 1) * step = (m + step) + u * step := by ring
        have harith2 : m + (u + 1) * step + mMax = (m + step) + u * step + mMax := by ring
        rw [harith]
        rw [ih (m + step) (butterflyPair w mMax a m) (hbp.1.trans hre) (hbp.2.1.trans him)
              hrest u (by omega)]
        have hp1 := butterflyPair_toC w mMax a m n hre him
          (by have h1 := hbound 0 (by omega); have h2 : 0 * step = 0 := Nat.zero_mul step; omega) hm ((m + step) + u * step)
        have hp2 := butterflyPair_toC w mMax a m n hre him
          (by have h1 := hbound 0 (by omega); have h2 : 0 * step = 0 := Nat.zero_mul step; omega) hm ((m + step) + u * step + mMax)
        rw [hp1, if_neg (by omega), if_neg (by omega)]
        rw [hp2, if_neg (by omega), if_neg (by omega)]

theorem innerFold_bot (w : ℝ × ℝ) (mMax step n : ℕ) (hm : 0 < mMax)
    (hstep : step = mMax * 2) :
    ∀ (cnt m : ℕ) (a : CArr), a.re.length = n → a.im.length = n →
      (∀ t, t < cnt → m + t * step + mMax < n) →
      ∀ t, t < cnt →
      ((List.range' m cnt step).foldl (butterflyPair w mMax) a).toC (m + t * step + mMax) =
        a.toC (m + t * step) - (⟨w.1, w.2⟩ : ℂ) * a.toC (m + t * step + mMax) := by
  intro cnt
  induction cnt with
  | zero => intro m a _ _ _ t ht; omega
  | succ cnt ih =>
      intro m a hre him hbound t ht
      rw [List.range'_succ, List.foldl_cons]
      have hbp := butterflyPair_lengths w mMax a m
      have hrest : ∀ u, u < cnt → (m + step) + u * step + mMax < n := by
        intro u hu
        have h1 := hbound (u + 1) (by omega)
        have h2 : (u + 1) * step = u * step + step := by ring
        omega
      rcases Nat.eq_zero_or_pos t with rfl | ht0
      · have hother : ∀ u, u < cnt →
            (m + 0 * step + mMax) ≠ (m + step) + u * step ∧
              (m + 0 * step + mMax) ≠ (m + step) + u * step + mMax := by
          intro u hu
          omega
        rw [innerFold_other w mMax step n hm hstep cnt (m + step) (butterflyPair w mMax a m)
              (hbp.1.trans hre) (hbp.2.1.trans him) hrest _ hother]
        have hp := butterflyPair_toC w mMax a m n hre him
          (by have h1 := hbound 0 (by omega); have h2 : 0 * step = 0 := Nat.zero_mul step; omega) hm (m + 0 * step + mMax)
        rw [hp, if_neg (by have h2 : 0 * step = 0 := Nat.zero_mul step; omega),
            if_pos (by have h2 : 0 * step = 0 := Nat.zero_mul step; omega)]
        norm_num
      · obtain ⟨u, rfl⟩ : ∃ u, t = u + 1 := ⟨t - 1, by omega⟩
        have harith : m + (u + 1) * step + mMax = (m + step) + u * step + mMax := by ring
        rw [harith]
        rw [ih (m + step) (butterflyPair w mMax a m) (hbp.1.trans hre) (hbp.2.1.trans him)
              hrest u (by omega)]
        have hp1 := butterflyPair_toC w mMax a m n hre him
          (by have h1 := hbound 0 (by omega); have h2 : 0 * step = 0 := Nat.zero_mul step; omega) hm ((m + step) + u * step)
        have hp2 := butterflyPair_toC w mMax a m n hre him
          (by have h1 := hbound 0 (by omega); have h2 : 0 * step = 0 := Nat.zero_mul step; omega) hm ((m + step) + u * step + mMax)
        rw [hp1, if_neg (by omega), if_neg (by omega)]
        rw [hp2, if_neg (by omega), if_neg (by omega)]
        have harith2 : m + (u + 1) * step = (m + step) + u * step := by ring
        rw [harith2]

theorem butterflyStage_eq_groups (st : CArr) (n mMax : ℕ) (a : CArr) :
    butterflyStage st n mMax a = butterflyGroups st n mMax mMax a :=
  rfl

theorem butterflyGroups_succ (st : CArr) (n mMax g : ℕ) (a : CArr) :
    butterflyGroups st n mMax (g + 1) a =
      (List.range' g ((n - g + mMax * 2 - 1) / (mMax * 2)) (mMax * 2)).foldl
        (butterflyPair (st.reAt (g * (n / (mMax * 2))), st.imAt (g * (n / (mMax * 2)))) mMax)
        (butterflyGroups st n mMax g a) := by
  rw [butterflyGroups, List.range_succ, List.foldl_append]
  rfl

theorem butterflyGroups_lengths (st : CArr) (n mMax : ℕ) :
    ∀ (g : ℕ) (a : CArr),
      (butterflyGroups st n mMax g a).re.length = a.re.length ∧
        (butterflyGroups st n mMax g a).im.length = a.im.length := by
  intro g
  induction g with
  | zero => intro a; exact ⟨rfl, rfl⟩
  | succ g ih =>
      intro a
      rw [butterflyGroups_succ]
      have h1 := innerFold_lengths
        (st.reAt (g * (n / (mMax * 2))), st.imAt (g * (n / (mMax * 2)))) mMax (mMax * 2)
        ((n - g + mMax * 2 - 1) / (mMax * 2)) g (butterflyGroups st n mMax g a)
      have h2 := ih a
      exact ⟨h1.1.trans h2.1, h1.2.trans h2.2⟩

theorem pair_add_half_lt (n mMax q j : ℕ) (hm : 0 < mMax) (hq : n = q * (mMax * 2))
    (hj : j < n) (hr : j % (mMax * 2) < mMax) : j + mMax < n := by
  set step := mMax * 2 with hstep
  have hstep0 : 0 < step := by omega
  have ht : j / step < q := by
    rw [Nat.div_lt_iff_lt_mul hstep0]
    omega
  have hdm : step * (j / step) + j % step = j := Nat.div_add_mod j step
  have hmul : (j / step + 1) * step ≤ q * step := Nat.mul_le_mul_right step (by omega)
  have hexp : (j / step + 1) * step = j / step * step + step := by ring
  have hcomm : step * (j / step) = j / step * step := by ring
  omega

theorem butterflyGroups_toC (st : CArr) (n mMax q : ℕ) (hm : 0 < mMax)
    (hq : n = q * (mMax * 2)) :
    ∀ (g : ℕ), g ≤ mMax → ∀ (a : CArr), a.re.length = n → a.im.length = n →
      ∀ j, j < n →
      (butterflyGroups st n mMax g a).toC j =
        if j % (mMax * 2) < g then
          a.toC j + (⟨st.reAt ((j % (mMax * 2)) * (n / (mMax * 2))),
                      st.imAt ((j % (mMax * 2)) * (n / (mMax * 2)))⟩ : ℂ) * a.toC (j + mMax)
        else if mMax ≤ j % (mMax * 2) ∧ j % (mMax * 2) < mMax + g then
          a.toC (j - mMax) - (⟨st.reAt ((j % (mMax * 2) - mMax) * (n / (mMax * 2))),
                               st.imAt ((j % (mMax * 2) - mMax) * (n / (mMax * 2)))⟩ : ℂ) *
            a.toC j
        else a.toC j := by
  intro g
  induction g with
  | zero =>
      intro _ a hre him j hj
      rw [if_neg (by omega), if_neg (by omega)]
      rfl
  | succ g ih =>
      intro hg a hre him j hj
      have hstep0 : 0 < mMax * 2 := by omega
      have hgm : g < mMax := by omega
      have hb := butterflyGroups_lengths st n mMax g a
      have hbre : (butterflyGroups st n mMax g a).re.length = n := hb.1.trans hre
      have hbim : (butterflyGroups st n mMax g a).im.length = n := hb.2.trans him
      have hq1 : 1 ≤ q := by
        rcases Nat.eq_zero_or_pos q with rfl | h
        · omega
        · omega
      have hcnt : (n - g + mMax * 2 - 1) / (mMax * 2) = q := by
        apply Nat.div_eq_of_lt_le
        · omega
        · have hexp : (q + 1) * (mMax * 2) = q * (mMax * 2) + mMax * 2 := by ring
          omega
      have hbound : ∀ t, t < q → g + t * (mMax * 2) + mMax < n := by
        intro t ht
        have h3 : (t + 1) * (mMax * 2) ≤ q * (mMax * 2) :=
          Nat.mul_le_mul_right (mMax * 2) (by omega)
        have h4 : (t + 1) * (mMax * 2) = t * (mMax * 2) + mMax * 2 := by ring
        omega
      have hdm : (mMax * 2) * (j / (mMax * 2)) + j % (mMax * 2) = j :=
        Nat.div_add_mod j (mMax * 2)
      have hcomm : (mMax * 2) * (j / (mMax * 2)) = j / (mMax * 2) * (mMax * 2) := by ring
      have hrlt : j % (mMax * 2) < mMax * 2 := Nat.mod_lt j hstep0
      have htq : j / (mMax * 2) < q := by
        rw [Nat.div_lt_iff_lt_mul hstep0]
        omega
      rw [butterflyGroups_succ]
      by_cases hcase1 : j % (mMax * 2) = g
      · -- this iteration touches j as the top of a pair
        have hj_eq : j = g + j / (mMax * 2) * (mMax * 2) := by omega
        have htop := innerFold_top
          (st.reAt (g * (n / (mMax * 2))), st.imAt (g * (n / (mMax * 2)))) mMax (mMax * 2) n
          hm rfl ((n - g + mMax * 2 - 1) / (mMax * 2)) g (butterflyGroups st n mMax g a)
          hbre hbim (by rw [hcnt]; exact hbound) (j / (mMax * 2)) (by rw [hcnt]; exact htq)
        rw [← hj_eq] at htop
        rw [htop]
        have hmod2 : (j + mMax) % (mMax * 2) = g + mMax := by
          have h5 : j + mMax = g + mMax + j / (mMax * 2) * (mMax * 2) := by omega
          rw [h5, Nat.add_mul_mod_self_right]
          exact Nat.mod_eq_of_lt (by omega)
        have hjm : j + mMax < n := pair_add_half_lt n mMax q j hm hq hj (by omega)
        have hv1 := ih (by omega) a hre him j hj
        rw [if_neg (by omega), if_neg (by omega)] at hv1
        have hv2 := ih (by omega) a hre him (j + mMax) hjm
        rw [if_neg (by omega), if_neg (by omega)] at hv2
        rw [hv1, hv2, if_pos (by omega)]
        rw [hcase1]
      · by_cases hcase2 : j % (mMax * 2) = g + mMax
        · -- this iteration touches j as the bottom of a pair
          have hj_eq : j = g + j / (mMax * 2) * (mMax * 2) + mMax := by omega
          have hbot := innerFold_bot
            (st.reAt (g * (n / (mMax * 2))), st.imAt (g * (n / (mMax * 2)))) mMax (mMax * 2) n
            hm rfl ((n - g + mMax * 2 - 1) / (mMax * 2)) g (butterflyGroups st n mMax g a)
            hbre hbim (by rw [hcnt]; exact hbound) (j / (mMax * 2)) (by rw [hcnt]; exact htq)
          rw [← hj_eq] at hbot
          have hmod1 : (g + j / (mMax * 2) * (mMax * 2)) % (mMax * 2) = g := by
            rw [Nat.add_mul_mod_self_right]
            exact Nat.mod_eq_of_lt (by omega)
          have hlt1 : g + j / (mMax * 2) * (mMax * 2) < n := by omega
          rw [hbot]
          have hv1 := ih (by omega) a hre him (g + j / (mMax * 2) * (mMax * 2)) hlt1
          rw [hmod1] at hv1
          rw [if_neg (by omega), if_neg (by omega)] at hv1
          have hv2 := ih (by omega) a hre him j hj
          rw [if_neg (by omega), if_neg (by omega)] at hv2
          rw [hv1, hv2, if_neg (by omega), if_pos (by omega)]
          have hsub1 : j - mMax = g + j / (mMax * 2) * (mMax * 2) := by omega
          have hsub2 : j % (mMax * 2) - mMax = g := by omega
          rw [hsub1, hsub2]
        · -- j is untouched by this iteration
          have hother := innerFold_other
            (st.reAt (g * (n / (mMax * 2))), st.imAt (g * (n / (mMax * 2)))) mMax (mMax * 2) n
            hm rfl ((n - g + mMax * 2 - 1) / (mMax * 2)) g (butterflyGroups st n mMax g a)
            hbre hbim (by rw [hcnt]; exact hbound) j
            (by
              rw [hcnt]
              intro t ht
              have hmodt : (g + t * (mMax * 2)) % (mMax * 2) = g := by
                rw [Nat.add_mul_mod_self_right]
                exact Nat.mod_eq_of_lt (by omega)
              have hmodt2 : (g + t * (mMax * 2) + mMax) % (mMax * 2) = g + mMax := by
                have h5 : g + t * (mMax * 2) + mMax = g + mMax + t * (mMax * 2) := by ring
                rw [h5, Nat.add_mul_mod_self_right]
                exact Nat.mod_eq_of_lt (by omega)
              constructor
              · intro hcontra
                rw [hcontra, hmodt] at hcase1
                exact hcase1 rfl
              · intro hcontra
                rw [hcontra, hmodt2] at hcase2
                exact hcase2 rfl)
          rw [hother]
          have hv := ih (by omega) a hre him j hj
          rw [hv]
          by_cases hc3 : j % (mMax * 2) < g
          · rw [if_pos hc3, if_pos (by omega)]
          · by_cases hc4 : mMax ≤ j % (mMax * 2) ∧ j % (mMax * 2) < mMax + g
            · rw [if_neg hc3, if_pos hc4, if_neg (by omega), if_pos (by omega)]
            · rw [if_neg hc3, if_neg hc4, if_neg (by omega), if_neg (by omega)]

theorem butterflyStage_lengths (st : CArr) (n mMax : ℕ) (a : CArr) :
    (butterflyStage st n mMax a).re.length = a.re.length ∧
      (butterflyStage st n mMax a).im.length = a.im.length := by
  rw [butterflyStage_eq_groups]
  exact butterflyGroups_lengths st n mMax mMax a

theorem butterflyStage_toC (st : CArr) (n mMax q : ℕ) (hm : 0 < mMax)
    (hq : n = q * (mMax * 2)) (a : CArr) (hre : a.re.length = n) (him : a.im.length = n)
    (j : ℕ) (hj : j < n) :
    (butterflyStage st n mMax a).toC j =
      if j % (mMax * 2) < mMax then
        a.toC j + st.toC ((j % (mMax * 2)) * (n / (mMax * 2))) * a.toC (j + mMax)
      else
        a.toC (j - mMax) - st.toC ((j % (mMax * 2) - mMax) * (n / (mMax * 2))) * a.toC j := by
  rw [butterflyStage_eq_groups,
      butterflyGroups_toC st n mMax q hm hq mMax le_rfl a hre him j hj]
  have hrlt : j % (mMax * 2) < mMax * 2 := Nat.mod_lt j (by omega)
  by_cases h : j % (mMax * 2) < mMax
  · rw [if_pos h, if_pos h]
    rfl
  · rw [if_neg h, if_pos (by omega), if_neg h]
    rfl

theorem sum_range_even_odd {M : Type} [AddCommMonoid M] (f : ℕ → M) (L : ℕ) :
    ∑ v ∈ Finset.range (2 * L), f v =
      (∑ u ∈ Finset.range L, f (2 * u)) + ∑ u ∈ Finset.range L, f (2 * u + 1) := by
  induction L with
  | zero => simp
  | succ L ih =>
      have h : 2 * (L + 1) = 2 * L + 1 + 1 := by ring
      rw [h, Finset.sum_range_succ, Finset.sum_range_succ, ih,
          Finset.sum_range_succ, Finset.sum_range_succ]
      abel

theorem zetaC_zpow (n : ℕ) (d : ℤ) :
    zetaC n ^ d = Complex.exp (2 * Real.pi * Complex.I * d / n) := by
  rw [zetaC, ← Complex.exp_int_mul]
  congr 1
  ring

theorem zetaC_scale (m N : ℕ) (hm : 0 < m) (hN : 0 < N) (d : ℤ) :
    zetaC (m * N) ^ ((m : ℤ) * d) = zetaC N ^ d := by
  rw [zetaC_zpow, zetaC_zpow]
  congr 1
  have hmc : (m : ℂ) ≠ 0 := Nat.cast_ne_zero.mpr hm.ne'
  have hNc : (N : ℂ) ≠ 0 := Nat.cast_ne_zero.mpr hN.ne'
  push_cast
  field_simp
  ring

theorem zetaC_half_pow (L : ℕ) (hL : 0 < L) : zetaC (2 * L) ^ (L : ℤ) = -1 := by
  rw [zetaC_zpow]
  have hLc : (L : ℂ) ≠ 0 := Nat.cast_ne_zero.mpr hL.ne'
  have h : 2 * (Real.pi : ℂ) * Complex.I * (L : ℤ) / ((2 * L : ℕ) : ℂ) =
      Real.pi * Complex.I := by
    push_cast
    field_simp
    ring
  rw [h, Complex.exp_pi_mul_I]

theorem zetaC_neg_half_pow (L : ℕ) (hL : 0 < L) : zetaC (2 * L) ^ (-(L : ℤ)) = -1 := by
  rw [zpow_neg, zetaC_half_pow L hL]
  norm_num

theorem bitRevSpec_two_mul (w b : ℕ) :
    bitRevSpec (w + 1) (2 * b) = bitRevSpec w b := by
  have h1 : 2 * b % 2 = 0 := by omega
  have h2 : 2 * b / 2 = b := by omega
  simp [bitRevSpec, h1, h2]

theorem bitRevSpec_two_mul_add_one (w b : ℕ) :
    bitRevSpec (w + 1) (2 * b + 1) = 2 ^ w + bitRevSpec w b := by
  have h1 : (2 * b + 1) % 2 = 1 := by omega
  have h2 : (2 * b + 1) / 2 = b := by omega
  simp [bitRevSpec, h1, h2]

theorem ctInv_step (x st : CArr) (k s : ℕ) (hs : s < k)
    (hst : ∀ idx, idx < 2 ^ (k - 1) → st.toC idx = zetaC (2 ^ k) ^ (-(idx : ℤ)))
    (a : CArr) (hre : a.re.length = 2 ^ k) (him : a.im.length = 2 ^ k)
    (hinv : ∀ j, j < 2 ^ k → a.toC j = ctInv x k s j) :
    ∀ j, j < 2 ^ k → (butterflyStage st (2 ^ k) (2 ^ s) a).toC j = ctInv x k (s + 1) j := by
  intro j hj
  have hL : 0 < 2 ^ s := Nat.pos_pow_of_pos s (by norm_num)
  have hq : (2 : ℕ) ^ k = 2 ^ (k - s - 1) * (2 ^ s * 2) := by
    have h : (2 : ℕ) ^ (k - s - 1) * (2 ^ s * 2) = 2 ^ (k - s - 1 + s + 1) := by
      rw [pow_add, pow_add, pow_one]
      ring
    rw [h]
    congr 1
    omega
  have hdivq : 2 ^ k / (2 ^ s * 2) = 2 ^ (k - s - 1) := by
    rw [hq]
    exact Nat.mul_div_cancel _ (by omega)
  have hrlt : j % (2 ^ s * 2) < 2 ^ s * 2 := Nat.mod_lt j (by omega)
  have hdm : (2 ^ s * 2) * (j / (2 ^ s * 2)) + j % (2 ^ s * 2) = j :=
    Nat.div_add_mod j (2 ^ s * 2)
  have h2s1 : (2 : ℕ) ^ (s + 1) = 2 ^ s * 2 := pow_succ 2 s
  have h2s1' : (2 : ℕ) ^ (s + 1) = 2 * 2 ^ s := by rw [h2s1]; ring
  have hkss : k - s = k - s - 1 + 1 := by omega
  have hks2 : (2 : ℕ) ^ (k - s) = 2 ^ (k - s - 1) * 2 := by
    have h : (2 : ℕ) ^ (k - s - 1) * 2 = 2 ^ (k - s - 1 + 1) := (pow_succ 2 (k - s - 1)).symm
    rw [h]
    congr 1
    try omega
  have hkm1 : (2 : ℕ) ^ (k - 1) = 2 ^ s * 2 ^ (k - s - 1) := by
    rw [← pow_add]
    congr 1
    omega
  have hz1 : zetaC (2 ^ (s + 1)) ≠ 0 := zetaC_ne_zero _
  rw [butterflyStage_toC st (2 ^ k) (2 ^ s) (2 ^ (k - s - 1)) hL hq a hre him j hj]
  -- indices of j at level s+1
  have hdivj : j / 2 ^ (s + 1) = j / (2 ^ s * 2) := by rw [h2s1]
  have hmodj : j % 2 ^ (s + 1) = j % (2 ^ s * 2) := by rw [h2s1]
  by_cases hr : j % (2 ^ s * 2) < 2 ^ s
  · -- top of the pair
    rw [if_pos hr]
    have hjdecomp : j = 2 ^ s * (2 * (j / (2 ^ s * 2))) + j % (2 ^ s * 2) := by
      have : 2 ^ s * (2 * (j / (2 ^ s * 2))) = (2 ^ s * 2) * (j / (2 ^ s * 2)) := by ring
      omega
    have hdiv2 : j / 2 ^ s = 2 * (j / (2 ^ s * 2)) := by
      conv_lhs => rw [hjdecomp]
      rw [Nat.mul_add_div hL, Nat.div_eq_of_lt hr]
      try omega
    have hmod2 : j % 2 ^ s = j % (2 ^ s * 2) := by
      conv_lhs => rw [hjdecomp]
      rw [Nat.mul_add_mod]
      exact Nat.mod_eq_of_lt hr
    have hjm_decomp : j + 2 ^ s = 2 ^ s * (2 * (j / (2 ^ s * 2)) + 1) + j % (2 ^ s * 2) := by
      have : 2 ^ s * (2 * (j / (2 ^ s * 2)) + 1) =
          (2 ^ s * 2) * (j / (2 ^ s * 2)) + 2 ^ s := by ring
      omega
    have hjm_div : (j + 2 ^ s) / 2 ^ s = 2 * (j / (2 ^ s * 2)) + 1 := by
      conv_lhs => rw [hjm_decomp]
      rw [Nat.mul_add_div hL, Nat.div_eq_of_lt hr]
      try omega
    have hjm_mod : (j + 2 ^ s) % 2 ^ s = j % (2 ^ s * 2) := by
      conv_lhs => rw [hjm_decomp]
      rw [Nat.mul_add_mod]
      exact Nat.mod_eq_of_lt hr
    have hjm_lt : j + 2 ^ s < 2 ^ k :=
      pair_add_half_lt (2 ^ k) (2 ^ s) (2 ^ (k - s - 1)) j hL hq hj hr
    -- the twiddle value
    have hwidx : j % (2 ^ s * 2) * (2 ^ k / (2 ^ s * 2)) < 2 ^ (k - 1) := by
      rw [hdivq]
      have h1 : (j % (2 ^ s * 2) + 1) * 2 ^ (k - s - 1) ≤ 2 ^ s * 2 ^ (k - s - 1) :=
        Nat.mul_le_mul_right _ (by omega)
      have h2 : (j % (2 ^ s * 2) + 1) * 2 ^ (k - s - 1) =
          j % (2 ^ s * 2) * 2 ^ (k - s - 1) + 2 ^ (k - s - 1) := by ring
      have h3 : 0 < 2 ^ (k - s - 1) := Nat.pos_pow_of_pos _ (by norm_num)
      omega
    have hw : st.toC (j % (2 ^ s * 2) * (2 ^ k / (2 ^ s * 2))) =
        zetaC (2 ^ (s + 1)) ^ (-(j % (2 ^ s * 2) : ℤ)) := by
      rw [hst _ hwidx, hdivq]
      have hbase : (2 : ℕ) ^ k = 2 ^ (k - s - 1) * 2 ^ (s + 1) := by
        rw [← pow_add]
        congr 1
        omega
      have hexp : (-(j % (2 ^ s * 2) * 2 ^ (k - s - 1) : ℕ) : ℤ) =
          (((2 ^ (k - s - 1) : ℕ)) : ℤ) * (-(j % (2 ^ s * 2) : ℤ)) := by
        push_cast
        ring
      rw [hbase, hexp]
      exact zetaC_scale (2 ^ (k - s - 1)) (2 ^ (s + 1))
        (Nat.pos_pow_of_pos _ (by norm_num)) (Nat.pos_pow_of_pos _ (by norm_num)) _
    rw [hinv j hj, hinv (j + 2 ^ s) hjm_lt, hw]
    -- now expand the target
    unfold ctInv
    rw [hdivj, hmodj, hdiv2, hmod2, hjm_div, hjm_mod]
    rw [show Finset.range (2 ^ (s + 1)) = Finset.range (2 * 2 ^ s) from by rw [h2s1']]
    rw [sum_range_even_odd _ (2 ^ s)]
    have hks1 : k - (s + 1) = k - s - 1 := by omega
    have hbr_even : bitRevSpec (k - s) (2 * (j / (2 ^ s * 2))) =
        bitRevSpec (k - (s + 1)) (j / (2 ^ s * 2)) := by
      rw [hkss, bitRevSpec_two_mul, hks1]
    have hbr_odd : bitRevSpec (k - s) (2 * (j / (2 ^ s * 2)) + 1) =
        2 ^ (k - s - 1) + bitRevSpec (k - (s + 1)) (j / (2 ^ s * 2)) := by
      rw [hkss, bitRevSpec_two_mul_add_one, hks1]
      have h11 : k - s - 1 + 1 - 1 = k - s - 1 := by omega
      rw [h11]
    have heven : ∀ u ∈ Finset.range (2 ^ s),
        x.toC (bitRevSpec (k - (s + 1)) (j / (2 ^ s * 2)) + 2 * u * 2 ^ (k - (s + 1))) *
            zetaC (2 ^ (s + 1)) ^ (-((j % (2 ^ s * 2)) * (2 * u) : ℕ) : ℤ) =
          x.toC (bitRevSpec (k - s) (2 * (j / (2 ^ s * 2))) + u * 2 ^ (k - s)) *
            zetaC (2 ^ s) ^ (-((j % (2 ^ s * 2)) * u : ℕ) : ℤ) := by
      intro u _
      rw [hbr_even]
      congr 1
      · congr 2
        rw [hks1, hks2]
        ring
      · have hexp : (-((j % (2 ^ s * 2)) * (2 * u) : ℕ) : ℤ) =
            (2 : ℤ) * (-((j % (2 ^ s * 2)) * u : ℕ) : ℤ) := by
          push_cast
          ring
        rw [hexp, h2s1']
        exact zetaC_scale 2 (2 ^ s) (by norm_num) hL _
    have hodd : ∀ u ∈ Finset.range (2 ^ s),
        x.toC (bitRevSpec (k - (s + 1)) (j / (2 ^ s * 2)) + (2 * u + 1) * 2 ^ (k - (s + 1))) *
            zetaC (2 ^ (s + 1)) ^ (-((j % (2 ^ s * 2)) * (2 * u + 1) : ℕ) : ℤ) =
          zetaC (2 ^ (s + 1)) ^ (-(j % (2 ^ s * 2) : ℤ)) *
            (x.toC (bitRevSpec (k - s) (2 * (j / (2 ^ s * 2)) + 1) + u * 2 ^ (k - s)) *
              zetaC (2 ^ s) ^ (-((j % (2 ^ s * 2)) * u : ℕ) : ℤ)) := by
      intro u _
      rw [hbr_odd]
      have hidx : bitRevSpec (k - (s + 1)) (j / (2 ^ s * 2)) + (2 * u + 1) * 2 ^ (k - (s + 1)) =
          2 ^ (k - s - 1) + bitRevSpec (k - (s + 1)) (j / (2 ^ s * 2)) + u * 2 ^ (k - s) := by
        rw [hks1, hks2]
        ring
      rw [hidx]
      have hexp : (-((j % (2 ^ s * 2)) * (2 * u + 1) : ℕ) : ℤ) =
          (2 : ℤ) * (-((j % (2 ^ s * 2)) * u : ℕ) : ℤ) + (-(j % (2 ^ s * 2) : ℤ)) := by
        push_cast
        ring
      rw [hexp, zpow_add₀ hz1]
      have hsc : zetaC (2 ^ (s + 1)) ^ ((2 : ℤ) * (-((j % (2 ^ s * 2)) * u : ℕ) : ℤ)) =
          zetaC (2 ^ s) ^ (-((j % (2 ^ s * 2)) * u : ℕ) : ℤ) := by
        rw [h2s1']
        exact zetaC_scale 2 (2 ^ s) (by norm_num) hL _
      rw [hsc]
      ring
    rw [Finset.sum_congr rfl heven, Finset.sum_congr rfl hodd, ← Finset.mul_sum]
  · -- bottom of the pair
    rw [if_neg hr]
    obtain ⟨r, hreq, hrlt2⟩ : ∃ r, j % (2 ^ s * 2) = 2 ^ s + r ∧ r < 2 ^ s :=
      ⟨j % (2 ^ s * 2) - 2 ^ s, by omega, by omega⟩
    have hmle : j % (2 ^ s * 2) ≤ j := Nat.mod_le j _
    have hjdecomp : j = 2 ^ s * (2 * (j / (2 ^ s * 2)) + 1) + r := by
      have h1 : 2 ^ s * (2 * (j / (2 ^ s * 2)) + 1) =
          (2 ^ s * 2) * (j / (2 ^ s * 2)) + 2 ^ s := by ring
      omega
    have hdiv2 : j / 2 ^ s = 2 * (j / (2 ^ s * 2)) + 1 := by
      conv_lhs => rw [hjdecomp]
      rw [Nat.mul_add_div hL, Nat.div_eq_of_lt hrlt2]
      try omega
    have hmod2 : j % 2 ^ s = r := by
      conv_lhs => rw [hjdecomp]
      rw [Nat.mul_add_mod]
      exact Nat.mod_eq_of_lt hrlt2
    have hjmdecomp : j - 2 ^ s = 2 ^ s * (2 * (j / (2 ^ s * 2))) + r := by
      have h1 : 2 ^ s * (2 * (j / (2 ^ s * 2))) = (2 ^ s * 2) * (j / (2 ^ s * 2)) := by ring
      omega
    have hjm_div : (j - 2 ^ s) / 2 ^ s = 2 * (j / (2 ^ s * 2)) := by
      rw [hjmdecomp, Nat.mul_add_div hL, Nat.div_eq_of_lt hrlt2]
      try omega
    have hjm_mod : (j - 2 ^ s) % 2 ^ s = r := by
      rw [hjmdecomp, Nat.mul_add_mod]
      exact Nat.mod_eq_of_lt hrlt2
    have hjm_lt : j - 2 ^ s < 2 ^ k := by omega
    have hwidx : (j % (2 ^ s * 2) - 2 ^ s) * (2 ^ k / (2 ^ s * 2)) < 2 ^ (k - 1) := by
      rw [hdivq, hreq]
      rw [show 2 ^ s + r - 2 ^ s = r from by omega]
      have h1 : (r + 1) * 2 ^ (k - s - 1) ≤ 2 ^ s * 2 ^ (k - s - 1) :=
        Nat.mul_le_mul_right _ (by omega)
      have h2 : (r + 1) * 2 ^ (k - s - 1) = r * 2 ^ (k - s - 1) + 2 ^ (k - s - 1) := by ring
      have h3 : 0 < 2 ^ (k - s - 1) := Nat.pos_pow_of_pos _ (by norm_num)
      omega
    have hw : st.toC ((j % (2 ^ s * 2) - 2 ^ s) * (2 ^ k / (2 ^ s * 2))) =
        zetaC (2 ^ (s + 1)) ^ (-(r : ℤ)) := by
      rw [hst _ hwidx, hdivq, hreq]
      rw [show 2 ^ s + r - 2 ^ s = r from by omega]
      have hbase : (2 : ℕ) ^ k = 2 ^ (k - s - 1) * 2 ^ (s + 1) := by
        rw [← pow_add]
        congr 1
        omega
      have hexp : (-(r * 2 ^ (k - s - 1) : ℕ) : ℤ) =
          (((2 ^ (k - s - 1) : ℕ)) : ℤ) * (-(r : ℤ)) := by
        push_cast
        ring
      rw [hbase, hexp]
      exact zetaC_scale (2 ^ (k - s - 1)) (2 ^ (s + 1))
        (Nat.pos_pow_of_pos _ (by norm_num)) (Nat.pos_pow_of_pos _ (by norm_num)) _
    rw [hinv (j - 2 ^ s) hjm_lt, hinv j hj, hw]
    unfold ctInv
    rw [hdivj, hmodj, hdiv2, hmod2, hjm_div, hjm_mod, hreq]
    rw [show Finset.range (2 ^ (s + 1)) = Finset.range (2 * 2 ^ s) from by rw [h2s1']]
    rw [sum_range_even_odd _ (2 ^ s)]
    have hks1 : k - (s + 1) = k - s - 1 := by omega
    have hbr_even : bitRevSpec (k - s) (2 * (j / (2 ^ s * 2))) =
        bitRevSpec (k - (s + 1)) (j / (2 ^ s * 2)) := by
      rw [hkss, bitRevSpec_two_mul, hks1]
    have hbr_odd : bitRevSpec (k - s) (2 * (j / (2 ^ s * 2)) + 1) =
        2 ^ (k - s - 1) + bitRevSpec (k - (s + 1)) (j / (2 ^ s * 2)) := by
      rw [hkss, bitRevSpec_two_mul_add_one, hks1]
      have h11 : k - s - 1 + 1 - 1 = k - s - 1 := by omega
      rw [h11]
    have hkill : ∀ u : ℕ, zetaC (2 ^ s) ^ (-(((2 ^ s + r) * u : ℕ)) : ℤ) =
        zetaC (2 ^ s) ^ (-((r * u : ℕ)) : ℤ) := by
      intro u
      rw [show (-(((2 ^ s + r) * u : ℕ)) : ℤ) =
          ((2 ^ s : ℕ) : ℤ) * (-(u : ℤ)) + (-((r * u : ℕ)) : ℤ) from by push_cast; ring]
      rw [zpow_add₀ (zetaC_ne_zero _), zpow_mul, zetaC_zpow_self (2 ^ s) hL]
      rw [one_zpow, one_mul]
    have heven : ∀ u ∈ Finset.range (2 ^ s),
        x.toC (bitRevSpec (k - (s + 1)) (j / (2 ^ s * 2)) + 2 * u * 2 ^ (k - (s + 1))) *
            zetaC (2 ^ (s + 1)) ^ (-((2 ^ s + r) * (2 * u) : ℕ) : ℤ) =
          x.toC (bitRevSpec (k - s) (2 * (j / (2 ^ s * 2))) + u * 2 ^ (k - s)) *
            zetaC (2 ^ s) ^ (-((r * u : ℕ)) : ℤ) := by
      intro u _
      rw [hbr_even]
      congr 1
      · congr 2
        rw [hks1, hks2]
        ring
      · rw [show (-((2 ^ s + r) * (2 * u) : ℕ) : ℤ) =
            (2 : ℤ) * (-(((2 ^ s + r) * u : ℕ)) : ℤ) from by push_cast; ring]
        rw [h2s1']
        exact (zetaC_scale 2 (2 ^ s) (by norm_num) hL _).trans (hkill u)
    have hodd : ∀ u ∈ Finset.range (2 ^ s),
        x.toC (bitRevSpec (k - (s + 1)) (j / (2 ^ s * 2)) + (2 * u + 1) * 2 ^ (k - (s + 1))) *
            zetaC (2 ^ (s + 1)) ^ (-((2 ^ s + r) * (2 * u + 1) : ℕ) : ℤ) =
          (-(zetaC (2 ^ (s + 1)) ^ (-(r : ℤ)))) *
            (x.toC (bitRevSpec (k - s) (2 * (j / (2 ^ s * 2)) + 1) + u * 2 ^ (k - s)) *
              zetaC (2 ^ s) ^ (-((r * u : ℕ)) : ℤ)) := by
      intro u _
      rw [hbr_odd]
      have hidx : bitRevSpec (k - (s + 1)) (j / (2 ^ s * 2)) + (2 * u + 1) * 2 ^ (k - (s + 1)) =
          2 ^ (k - s - 1) + bitRevSpec (k - (s + 1)) (j / (2 ^ s * 2)) + u * 2 ^ (k - s) := by
        rw [hks1, hks2]
        ring
      rw [hidx]
      rw [show (-((2 ^ s + r) * (2 * u + 1) : ℕ) : ℤ) =
          (2 : ℤ) * (-(((2 ^ s + r) * u : ℕ)) : ℤ) + (-(r : ℤ) + -((2 ^ s : ℕ) : ℤ)) from by
        push_cast; ring]
      rw [zpow_add₀ hz1, zpow_add₀ hz1]
      have hsc : zetaC (2 ^ (s + 1)) ^ ((2 : ℤ) * (-(((2 ^ s + r) * u : ℕ)) : ℤ)) =
          zetaC (2 ^ s) ^ (-(((2 ^ s + r) * u : ℕ)) : ℤ) := by
        rw [h2s1']
        exact zetaC_scale 2 (2 ^ s) (by norm_num) hL _
      rw [hsc, hkill u]
      have hneg : zetaC (2 ^ (s + 1)) ^ (-((2 ^ s : ℕ) : ℤ)) = -1 := by
        rw [h2s1']
        exact zetaC_neg_half_pow (2 ^ s) hL
      rw [hneg]
      ring
    rw [Finset.sum_congr rfl heven, Finset.sum_congr rfl hodd, ← Finset.mul_sum]
    ring

theorem ctInv_zero (x : CArr) (k j : ℕ) :
    ctInv x k 0 j = x.toC (bitRevSpec k j) := by
  simp [ctInv]

theorem ctInv_top (x : CArr) (k j : ℕ) (hj : j < 2 ^ k) :
    ctInv x k k j = dftC x.toC (2 ^ k) j := by
  unfold ctInv dftC
  have h1 : k - k = 0 := by omega
  rw [h1, Nat.mod_eq_of_lt hj]
  refine Finset.sum_congr rfl fun u _ => ?_
  have h2 : bitRevSpec 0 (j / 2 ^ k) = 0 := rfl
  rw [h2]
  norm_num

theorem copyBitReversed_toC (x : CArr) (k : ℕ) (hlen : x.length = 2 ^ k) (i2 : ℕ)
    (hi : i2 < 2 ^ k) :
    (copyBitReversed x).toC i2 = x.toC (ibrIter (2 ^ k) i2) := by
  unfold copyBitReversed CArr.toC
  show (⟨CArr.reAt _ i2, CArr.imAt _ i2⟩ : ℂ) = _
  unfold CArr.reAt CArr.imAt
  simp only [hlen]
  rw [getD_map_range _ hi, getD_map_range _ hi]

theorem copyBitReversed_lengths (x : CArr) :
    (copyBitReversed x).re.length = x.length ∧ (copyBitReversed x).im.length = x.length := by
  simp [copyBitReversed]

theorem sineTable_toC (n : ℕ) (hn : 0 < n) (q : ℕ) (hq : q < n / 2) :
    (createCooleyTukeySineTable n).toC q = zetaC n ^ (-(q : ℤ)) := by
  unfold createCooleyTukeySineTable createSineTable CArr.toC
  show (⟨CArr.reAt _ q, CArr.imAt _ q⟩ : ℂ) = _
  unfold CArr.reAt CArr.imAt
  rw [getD_map_range _ hq, getD_map_range _ hq]
  simp only [Bool.false_eq_true, if_false]
  rw [zetaC_zpow]
  have hnc : (n : ℂ) ≠ 0 := Nat.cast_ne_zero.mpr hn.ne'
  have harg : 2 * Real.pi * Complex.I * ((-(q : ℤ) : ℤ) : ℂ) / (n : ℂ) =
      ((-((q : ℝ) * (2 * Real.pi / (n : ℝ))) : ℝ) : ℂ) * Complex.I := by
    push_cast
    ring
  rw [harg, Complex.ext_iff]
  constructor
  · rw [Complex.exp_ofReal_mul_I_re, Real.cos_neg]
  · rw [Complex.exp_ofReal_mul_I_im, Real.sin_neg]

theorem floorLog2_two_pow (k : ℕ) : floorLog2 (2 ^ k) = k := by
  unfold floorLog2
  exact Nat.log2_two_pow

theorem isPowerOf2_of_pow (k : ℕ) (hk : k ≤ 30) : isPowerOf2 (2 ^ k) = true := by
  unfold isPowerOf2
  simp only [decide_eq_true_eq]
  refine ⟨Nat.one_le_two_pow, ?_, ?_⟩
  · have h30 : (0x40000000 : ℕ) = 2 ^ 30 := by norm_num
    rw [h30]
    exact Nat.pow_le_pow_right (by norm_num) hk
  · apply Nat.eq_of_testBit_eq
    intro i
    rw [Nat.testBit_and, Nat.testBit_two_pow, Nat.testBit_two_pow_sub_one, Nat.zero_testBit]
    by_cases hik : k = i
    · subst hik
      simp
    · simp [hik]

theorem isPowerOf2_pow (i : ℕ) (h : isPowerOf2 i = true) :
    i = 2 ^ floorLog2 i ∧ floorLog2 i ≤ 30 := by
  unfold isPowerOf2 at h
  simp only [decide_eq_true_eq] at h
  obtain ⟨h1, h2, h3⟩ := h
  have hne : i ≠ 0 := by omega
  have hlo : 2 ^ Nat.log2 i ≤ i := Nat.log2_self_le hne
  have hhi : i < 2 ^ (Nat.log2 i + 1) := Nat.lt_log2_self
  have heq : i = 2 ^ Nat.log2 i := by
    by_contra hne2
    have hgt : 2 ^ Nat.log2 i < i := lt_of_le_of_ne hlo (fun h => hne2 h.symm)
    have ht1 : i.testBit (Nat.log2 i) = true := by
      rw [Nat.testBit_to_div_mod]
      have hp : 2 ^ (Nat.log2 i + 1) = 2 ^ Nat.log2 i * 2 := pow_succ 2 _
      rw [hp] at hhi
      have hd : i / 2 ^ Nat.log2 i = 1 :=
        Nat.div_eq_of_lt_le (by omega) (by omega)
      rw [hd]
      decide
    have ht2 : (i - 1).testBit (Nat.log2 i) = true := by
      rw [Nat.testBit_to_div_mod]
      have hd : (i - 1) / 2 ^ Nat.log2 i = 1 :=
        Nat.div_eq_of_lt_le (by omega) (by omega)
      rw [hd]
      decide
    have ht3 : (i &&& (i - 1)).testBit (Nat.log2 i) = true := by
      rw [Nat.testBit_and, ht1, ht2]
      rfl
    rw [h3, Nat.zero_testBit] at ht3
    exact Bool.false_ne_true ht3
  constructor
  · exact heq
  · show Nat.log2 i ≤ 30
    by_contra hgt
    push_neg at hgt
    have h31 : 2 ^ 31 ≤ 2 ^ Nat.log2 i := Nat.pow_le_pow_right (by norm_num) (by omega)
    have h30 : (0x40000000 : ℕ) = 2 ^ 30 := by norm_num
    rw [heq] at h2
    rw [h30] at h2
    have : (2 : ℕ) ^ 31 ≤ 2 ^ 30 := le_trans h31 h2
    have h2lt : (2 : ℕ) ^ 30 < 2 ^ 31 := Nat.pow_lt_pow_right (by norm_num) (by omega)
    omega

theorem butterflyStages_inv (x st : CArr) (k : ℕ)
    (hst : ∀ idx, idx < 2 ^ (k - 1) → st.toC idx = zetaC (2 ^ k) ^ (-(idx : ℤ))) :
    ∀ d s, k - s = d → s ≤ k → ∀ a : CArr,
      a.re.length = 2 ^ k → a.im.length = 2 ^ k →
      (∀ j, j < 2 ^ k → a.toC j = ctInv x k s j) →
      (∀ j, j < 2 ^ k → (butterflyStages st (2 ^ k) (2 ^ s) a).toC j = ctInv x k k j) ∧
      (butterflyStages st (2 ^ k) (2 ^ s) a).re.length = 2 ^ k ∧
      (butterflyStages st (2 ^ k) (2 ^ s) a).im.length = 2 ^ k := by
  intro d
  induction d with
  | zero =>
      intro s hd hsk a hre him hinv
      have hsk' : s = k := by omega
      subst hsk'
      rw [butterflyStages]
      rw [dif_neg (fun h => lt_irrefl _ h.2)]
      exact ⟨hinv, hre, him⟩
  | succ d ih =>
      intro s hd hsk a hre him hinv
      have hslt : s < k := by omega
      have h1 : (2 : ℕ) ^ s < 2 ^ k := Nat.pow_lt_pow_right (by norm_num) hslt
      rw [butterflyStages]
      rw [dif_pos ⟨Nat.pos_pow_of_pos s (by norm_num), h1⟩]
      have h2 : (2 : ℕ) ^ s * 2 = 2 ^ (s + 1) := (pow_succ 2 s).symm
      rw [h2]
      obtain ⟨hl1, hl2⟩ := butterflyStage_lengths st (2 ^ k) (2 ^ s) a
      exact ih (s + 1) (by omega) (by omega) (butterflyStage st (2 ^ k) (2 ^ s) a)
        (hl1.trans hre) (hl2.trans him)
        (ctInv_step x st k s hslt hst a hre him hinv)

theorem getCached_cacheOk (c : Cache) (hc : CacheOk c) (n : ℕ) (h : isPowerOf2 n = true) :
    (getCachedCooleyTukeySineTable c n).1 = createCooleyTukeySineTable n ∧
    CacheOk (getCachedCooleyTukeySineTable c n).2 := by
  obtain ⟨heq, _⟩ := isPowerOf2_pow n h
  unfold getCachedCooleyTukeySineTable
  cases hcc : c (floorLog2 n) with
  | some t =>
      simp only [hcc]
      refine ⟨?_, hc⟩
      rw [hc (floorLog2 n) t hcc, ← heq]
  | none =>
      simp only [hcc]
      constructor
      · trivial
      · intro j t hjt
        simp only [] at hjt
        by_cases hj : j = floorLog2 n
        · subst hj
          rw [if_pos rfl] at hjt
          injection hjt with h2
          rw [← h2, ← heq]
        · rw [if_neg hj] at hjt
          exact hc j t hjt

theorem fftCooleyTukeyS_dft (c : Cache) (hc : CacheOk c) (x : CArr) (k : ℕ)
    (hlen : x.length = 2 ^ k) (hk : 1 ≤ k) (hk30 : k ≤ 30) :
    (∀ j, j < 2 ^ k → (fftCooleyTukeyS c x).1.toC j = dftC x.toC (2 ^ k) j) ∧
    (fftCooleyTukeyS c x).1.re.length = 2 ^ k ∧
    (fftCooleyTukeyS c x).1.im.length = 2 ^ k ∧
    CacheOk (fftCooleyTukeyS c x).2 := by
  have hres : fftCooleyTukeyS c x =
      (applyButterflies (copyBitReversed x) (getCachedCooleyTukeySineTable c x.length).1,
       (getCachedCooleyTukeySineTable c x.length).2) := rfl
  obtain ⟨hst_eq, hc2⟩ := getCached_cacheOk c hc x.length
    (by rw [hlen]; exact isPowerOf2_of_pow k hk30)
  have hhalf : (2 : ℕ) ^ k / 2 = 2 ^ (k - 1) := by
    have h1 : (2 : ℕ) ^ k = 2 ^ (k - 1) * 2 := by
      have h2 : (2 : ℕ) ^ (k - 1) * 2 = 2 ^ (k - 1 + 1) := (pow_succ 2 (k - 1)).symm
      rw [h2]
      congr 1
      omega
    omega
  have hst : ∀ idx, idx < 2 ^ (k - 1) →
      (getCachedCooleyTukeySineTable c x.length).1.toC idx = zetaC (2 ^ k) ^ (-(idx : ℤ)) := by
    intro idx hidx
    rw [hst_eq, hlen]
    exact sineTable_toC (2 ^ k) (Nat.pos_pow_of_pos _ (by norm_num)) idx (by omega)
  have ha := copyBitReversed_lengths x
  have hare : (copyBitReversed x).re.length = 2 ^ k := by rw [ha.1, hlen]
  have haim : (copyBitReversed x).im.length = 2 ^ k := by rw [ha.2, hlen]
  have hinv0 : ∀ j, j < 2 ^ k → (copyBitReversed x).toC j = ctInv x k 0 j := by
    intro j hj
    rw [copyBitReversed_toC x k hlen j hj, ibrIter_eq k j hj, ctInv_zero]
  have hmain := butterflyStages_inv x (getCachedCooleyTukeySineTable c x.length).1 k hst k 0
    (by omega) (by omega) (copyBitReversed x) hare haim hinv0
  rw [pow_zero] at hmain
  have happ : applyButterflies (copyBitReversed x) (getCachedCooleyTukeySineTable c x.length).1 =
      butterflyStages (getCachedCooleyTukeySineTable c x.length).1 (2 ^ k) 1
        (copyBitReversed x) := by
    show butterflyStages _ (copyBitReversed x).length 1 (copyBitReversed x) = _
    show butterflyStages _ x.length 1 (copyBitReversed x) = _
    rw [hlen]
  rw [hres]
  refine ⟨?_, ?_, ?_, hc2⟩
  · intro j hj
    show (applyButterflies (copyBitReversed x) (getCachedCooleyTukeySineTable c x.length).1).toC j
      = _
    rw [happ, hmain.1 j hj, ctInv_top x k j hj]
  · show (applyButterflies (copyBitReversed x)
      (getCachedCooleyTukeySineTable c x.length).1).re.length = 2 ^ k
    rw [happ]
    exact hmain.2.1
  · show (applyButterflies (copyBitReversed x)
      (getCachedCooleyTukeySineTable c x.length).1).im.length = 2 ^ k
    rw [happ]
    exact hmain.2.2

theorem getD_map (l : List ℝ) (f : ℝ → ℝ) (j : ℕ) (hj : j < l.length) (d d' : ℝ) :
    (l.map f).getD j d = f (l.getD j d') := by
  rw [List.getD_eq_getElem?_getD, List.getD_eq_getElem?_getD, List.getElem?_map,
      List.getElem?_eq_getElem hj]
  rfl

theorem swapReIm_toC (a : CArr) (j : ℕ) :
    (swapReIm a).toC j = Complex.I * (starRingEnd ℂ) (a.toC j) := by
  unfold swapReIm CArr.toC CArr.reAt CArr.imAt
  rw [Complex.ext_iff]
  constructor
  · simp [Complex.mul_re]
  · simp [Complex.mul_im]

theorem zetaC_conj_zpow (n : ℕ) (d : ℤ) :
    (starRingEnd ℂ) (zetaC n ^ d) = zetaC n ^ (-d) := by
  rw [zetaC_zpow, zetaC_zpow, ← Complex.exp_conj]
  congr 1
  simp only [map_div₀, map_mul, Complex.conj_I, map_intCast, map_natCast, map_ofNat,
    Complex.conj_ofReal]
  push_cast
  ring

theorem dftC_swap (f : ℕ → ℂ) (n j : ℕ) :
    dftC (fun t => Complex.I * (starRingEnd ℂ) (f t)) n j
      = Complex.I * (starRingEnd ℂ) (idftC f n j) := by
  unfold dftC idftC
  rw [map_sum, Finset.mul_sum]
  refine Finset.sum_congr rfl fun t _ => ?_
  rw [map_mul, zetaC_conj_zpow]
  ring

theorem dftC_congr (f g : ℕ → ℂ) (n j : ℕ) (h : ∀ t, t < n → f t = g t) :
    dftC f n j = dftC g n j := by
  unfold dftC
  exact Finset.sum_congr rfl fun t ht => by rw [h t (Finset.mem_range.mp ht)]

theorem idftC_congr (f g : ℕ → ℂ) (n j : ℕ) (h : ∀ t, t < n → f t = g t) :
    idftC f n j = idftC g n j := by
  unfold idftC
  exact Finset.sum_congr rfl fun t ht => by rw [h t (Finset.mem_range.mp ht)]

theorem i_conj_i_conj (z : ℂ) : Complex.I * (starRingEnd ℂ) (Complex.I * (starRingEnd ℂ) z) = z := by
  rw [map_mul, Complex.conj_I, Complex.conj_conj]
  have h := Complex.I_mul_I
  ring_nf
  rw [Complex.I_sq]
  ring

theorem mulAllByReal_toC (a : CArr) (r : ℝ) (j : ℕ) (hj1 : j < a.re.length)
    (hj2 : j < a.im.length) :
    (a.mulAllByReal r).toC j = (r : ℂ) * a.toC j := by
  unfold CArr.mulAllByReal CArr.toC CArr.reAt CArr.imAt
  show (⟨(a.re.map (· * r)).getD j 0, (a.im.map (· * r)).getD j 0⟩ : ℂ) = _
  rw [getD_map _ _ _ hj1 0 0, getD_map _ _ _ hj2 0 0]
  rw [Complex.ext_iff]
  constructor
  · simp [Complex.mul_re]
    try ring
  · simp [Complex.mul_im]
    try ring

theorem mulAllByReal_lengths (a : CArr) (r : ℝ) :
    (a.mulAllByReal r).re.length = a.re.length ∧
      (a.mulAllByReal r).im.length = a.im.length := by
  simp [CArr.mulAllByReal]

theorem mulByArray_toC (a b : CArr) (j : ℕ) (hj : j < a.length) :
    (a.mulByArray b).toC j = a.toC j * b.toC j := by
  unfold CArr.mulByArray CArr.toC
  show (⟨CArr.reAt _ j, CArr.imAt _ j⟩ : ℂ) = _
  unfold CArr.reAt CArr.imAt
  rw [getD_map_range _ hj, getD_map_range _ hj]
  unfold setMul
  rw [Complex.ext_iff]
  constructor
  · simp [Complex.mul_re, CArr.reAt, CArr.imAt]
    try ring
  · simp [Complex.mul_im, CArr.reAt, CArr.imAt]
    try ring

theorem mulByArray_lengths (a b : CArr) :
    (a.mulByArray b).re.length = a.length ∧ (a.mulByArray b).im.length = a.length := by
  simp [CArr.mulByArray]

theorem fftS_pow2_dft (fuel : ℕ) (c : Cache) (hc : CacheOk c) (x : CArr) (k : ℕ)
    (hlen : x.length = 2 ^ k) (hk : 1 ≤ k) (hk30 : k ≤ 30) :
    (∀ j, j < 2 ^ k → (fftS fuel c x true).1.toC j = dftC x.toC (2 ^ k) j) ∧
    (fftS fuel c x true).1.re.length = 2 ^ k ∧
    (fftS fuel c x true).1.im.length = 2 ^ k ∧
    CacheOk (fftS fuel c x true).2 := by
  have h21 : (2 : ℕ) ^ 1 = 2 := by norm_num
  have h2k : (2 : ℕ) ^ 1 ≤ 2 ^ k := Nat.pow_le_pow_right (by norm_num) hk
  have hle : ¬ x.length ≤ 1 := by
    rw [hlen]
    omega
  have hp2 : isPowerOf2 x.length = true := by
    rw [hlen]
    exact isPowerOf2_of_pow k hk30
  have hunf : fftS fuel c x true = fftCooleyTukeyS c x := by
    rw [fftS, if_neg hle]
    simp only [hp2]
    rfl
  rw [hunf]
  exact fftCooleyTukeyS_dft c hc x k hlen hk hk30

theorem fftS_pow2_idft (fuel : ℕ) (c : Cache) (hc : CacheOk c) (x : CArr) (hx : x.wf)
    (k : ℕ) (hlen : x.length = 2 ^ k) (hk : 1 ≤ k) (hk30 : k ≤ 30) :
    (∀ j, j < 2 ^ k → (fftS fuel c x false).1.toC j = idftC x.toC (2 ^ k) j) ∧
    (fftS fuel c x false).1.re.length = 2 ^ k ∧
    (fftS fuel c x false).1.im.length = 2 ^ k ∧
    CacheOk (fftS fuel c x false).2 := by
  rw [fftS_inverse_swap fuel c x hx]
  have hswlen : (swapReIm x).length = 2 ^ k := hlen
  obtain ⟨hv, hr, hi, hcok⟩ := fftS_pow2_dft fuel c hc (swapReIm x) k hswlen hk hk30
  refine ⟨?_, ?_, ?_, hcok⟩
  · intro j hj
    show (swapReIm (fftS fuel c (swapReIm x) true).1).toC j = _
    rw [swapReIm_toC, hv j hj]
    have hsw : dftC (swapReIm x).toC (2 ^ k) j =
        dftC (fun t => Complex.I * (starRingEnd ℂ) (x.toC t)) (2 ^ k) j :=
      dftC_congr _ _ _ _ (fun t _ => swapReIm_toC x t)
    rw [hsw, dftC_swap, i_conj_i_conj]
  · show (fftS fuel c (swapReIm x) true).1.im.length = 2 ^ k
    exact hi
  · show (fftS fuel c (swapReIm x) true).1.re.length = 2 ^ k
    exact hr

theorem foldl_len_preserve (f : CArr → ℕ → CArr) (h : ∀ a i, (f a i).length = a.length) :
    ∀ (l : List ℕ) (a : CArr), (l.foldl f a).length = a.length := by
  intro l
  induction l with
  | nil => intro a; rfl
  | cons hd tl ih =>
      intro a
      show (tl.foldl f (f a hd)).length = a.length
      rw [ih (f a hd), h a hd]

theorem butterflyPair_len (w : ℝ × ℝ) (mMax : ℕ) (a : CArr) (i : ℕ) :
    (butterflyPair w mMax a i).length = a.length := rfl

theorem butterflyStage_len (st : CArr) (n mMax : ℕ) (a : CArr) :
    (butterflyStage st n mMax a).length = a.length := by
  unfold butterflyStage
  exact foldl_len_preserve _
    (fun a m => foldl_len_preserve _ (butterflyPair_len _ _) _ a) _ a

theorem butterflyStages_len : ∀ (d : ℕ) (st : CArr) (n mMax : ℕ) (a : CArr), n - mMax = d →
    (butterflyStages st n mMax a).length = a.length := by
  intro d
  induction d using Nat.strong_induction_on with
  | _ d ih =>
      intro st n mMax a hd
      rw [butterflyStages]
      by_cases h : 0 < mMax ∧ mMax < n
      · rw [dif_pos h]
        rw [ih (n - mMax * 2) (by omega) st n (mMax * 2) _ rfl, butterflyStage_len]
      · rw [dif_neg h]

theorem fftCooleyTukeyS_len (c : Cache) (x : CArr) :
    (fftCooleyTukeyS c x).1.length = x.length := by
  show (applyButterflies (copyBitReversed x) _).length = x.length
  unfold applyButterflies
  rw [butterflyStages_len ((copyBitReversed x).length - 1) _ _ _ _ rfl]
  rfl

theorem fftS_pow2_eq (fuel : ℕ) (c : Cache) (x : CArr) (k : ℕ)
    (hlen : x.length = 2 ^ k) (hk : 1 ≤ k) (hk30 : k ≤ 30) :
    fftS fuel c x true = fftCooleyTukeyS c x := by
  have h2k : (2 : ℕ) ^ 1 ≤ 2 ^ k := Nat.pow_le_pow_right (by norm_num) hk
  have h21 : (2 : ℕ) ^ 1 = 2 := by norm_num
  have hle : ¬ x.length ≤ 1 := by
    rw [hlen]
    omega
  have hp2 : isPowerOf2 x.length = true := by
    rw [hlen]
    exact isPowerOf2_of_pow k hk30
  rw [fftS, if_neg hle]
  simp only [hp2]
  rfl

theorem zetaC_zpow_congr (n : ℕ) (hn : 0 < n) (d e : ℤ) (h : (n : ℤ) ∣ d - e) :
    zetaC n ^ d = zetaC n ^ e := by
  have h1 : zetaC n ^ (d - e) = 1 := (zetaC_zpow_eq_one_iff n hn _).mpr h
  rw [show d = e + (d - e) from by ring, zpow_add₀ (zetaC_ne_zero n), h1, mul_one]

theorem zetaC_zpow_natmod (m : ℕ) (hm : 0 < m) (a : ℕ) (e : ℤ) :
    zetaC m ^ (e * ((a % m : ℕ) : ℤ)) = zetaC m ^ (e * (a : ℤ)) := by
  apply zetaC_zpow_congr m hm
  refine ⟨e * (-((a / m : ℕ) : ℤ)), ?_⟩
  have h : m * (a / m) + a % m = a := Nat.div_add_mod a m
  have hc : (m : ℤ) * ((a / m : ℕ) : ℤ) + ((a % m : ℕ) : ℤ) = (a : ℤ) := by
    exact_mod_cast h
  have h2 : ((a % m : ℕ) : ℤ) = (a : ℤ) - (m : ℤ) * ((a / m : ℕ) : ℤ) := by linarith
  rw [h2]
  ring

theorem sineOfSquare_toC (n : ℕ) (hn : 0 < n) (i : ℕ) (hi : i < n) :
    (createSineOfSquareTable n (2 * n)).toC i = zetaC (2 * n) ^ ((i * i : ℕ) : ℤ) := by
  have h2n : 0 < 2 * n := by omega
  have hstep : (createSineOfSquareTable n (2 * n)).toC i =
      zetaC (2 * n) ^ ((i * i % (2 * n) : ℕ) : ℤ) := by
    unfold createSineOfSquareTable CArr.toC
    show (⟨CArr.reAt _ i, CArr.imAt _ i⟩ : ℂ) = _
    unfold CArr.reAt CArr.imAt
    rw [getD_map_range _ hi, getD_map_range _ hi]
    rw [zetaC_zpow]
    have hnc : ((2 * n : ℕ) : ℂ) ≠ 0 := Nat.cast_ne_zero.mpr h2n.ne'
    have harg : ∀ M : ℕ, 2 * Real.pi * Complex.I * ((M : ℤ) : ℂ) / ((2 * n : ℕ) : ℂ) =
        (((M : ℝ) * (2 * Real.pi / ((2 * n : ℕ) : ℝ)) : ℝ) : ℂ) * Complex.I := by
      intro M
      push_cast
      ring
    rw [harg (i * i % (2 * n)), Complex.ext_iff]
    constructor
    · rw [Complex.exp_ofReal_mul_I_re]
    · rw [Complex.exp_ofReal_mul_I_im]
  rw [hstep]
  have h1 : zetaC (2 * n) ^ ((1 : ℤ) * ((i * i % (2 * n) : ℕ) : ℤ)) =
      zetaC (2 * n) ^ ((1 : ℤ) * ((i * i : ℕ) : ℤ)) := zetaC_zpow_natmod (2 * n) h2n (i * i) 1
  rw [one_mul, one_mul] at h1
  exact h1

theorem conj_toC (a : CArr) (i : ℕ) :
    (starRingEnd ℂ) (a.toC i) = ⟨a.reAt i, -(a.imAt i)⟩ := by
  rw [CArr.toC, Complex.ext_iff]
  constructor
  · rw [Complex.conj_re]
  · rw [Complex.conj_im]

theorem bluesteinA1_toC (x st : CArr) (n m : ℕ) (p : ℕ) (hp : p < m) :
    (bluesteinA1 x st n m).toC p =
      if p < n then x.toC p * (starRingEnd ℂ) (st.toC p) else 0 := by
  unfold bluesteinA1 CArr.toC
  show (⟨CArr.reAt _ p, CArr.imAt _ p⟩ : ℂ) = _
  unfold CArr.reAt CArr.imAt
  rw [getD_map_range _ hp, getD_map_range _ hp]
  by_cases hpn : p < n
  · rw [if_pos hpn, if_pos hpn, if_pos hpn]
    unfold setMul
    rw [Complex.ext_iff]
    constructor
    · simp [Complex.mul_re, Complex.conj_re, Complex.conj_im]
      try ring
    · simp [Complex.mul_im, Complex.conj_re, Complex.conj_im]
      try ring
  · rw [if_neg hpn, if_neg hpn, if_neg hpn]
    rfl

theorem bluesteinA1_shape (x st : CArr) (n m : ℕ) :
    (bluesteinA1 x st n m).re.length = m ∧ (bluesteinA1 x st n m).im.length = m ∧
      (bluesteinA1 x st n m).length = m := by
  refine ⟨?_, ?_, rfl⟩ <;> simp [bluesteinA1]

theorem bluesteinA2_toC (st : CArr) (n m : ℕ) (p : ℕ) (hp : p < m) :
    (bluesteinA2 st n m).toC p =
      if 0 < m - p ∧ m - p < n then st.toC (m - p)
      else if p < n then st.toC p else 0 := by
  unfold bluesteinA2 CArr.toC
  show (⟨CArr.reAt _ p, CArr.imAt _ p⟩ : ℂ) = _
  unfold CArr.reAt CArr.imAt
  rw [getD_map_range _ hp, getD_map_range _ hp]
  split_ifs with h1 h2
  · rfl
  · rfl
  · rfl

theorem bluesteinA2_shape (st : CArr) (n m : ℕ) :
    (bluesteinA2 st n m).re.length = m ∧ (bluesteinA2 st n m).im.length = m ∧
      (bluesteinA2 st n m).length = m := by
  refine ⟨?_, ?_, rfl⟩ <;> simp [bluesteinA2]

theorem bluesteinA4_toC (a3 st : CArr) (n i : ℕ) (hi : i < n) :
    (bluesteinA4 a3 st n).toC i = a3.toC i * (starRingEnd ℂ) (st.toC i) := by
  unfold bluesteinA4 CArr.toC
  show (⟨CArr.reAt _ i, CArr.imAt _ i⟩ : ℂ) = _
  unfold CArr.reAt CArr.imAt
  rw [getD_map_range _ hi, getD_map_range _ hi]
  unfold setMul
  rw [Complex.ext_iff]
  constructor
  · simp [Complex.mul_re, Complex.conj_re, Complex.conj_im]
    try ring
  · simp [Complex.mul_im, Complex.conj_re, Complex.conj_im]
    try ring

theorem bluesteinA4_shape (a3 st : CArr) (n : ℕ) :
    (bluesteinA4 a3 st n).re.length = n ∧ (bluesteinA4 a3 st n).im.length = n ∧
      (bluesteinA4 a3 st n).length = n := by
  refine ⟨?_, ?_, rfl⟩ <;> simp [bluesteinA4]

theorem conv_inner (g : ℕ → ℂ) (m : ℕ) (hm : 0 < m) (j u : ℕ) (hu : u < m) :
    ∑ p ∈ Finset.range m, g ((p + m - u) % m) * zetaC m ^ (-(j * p : ℤ)) =
      zetaC m ^ (-(j * u : ℤ)) * ∑ v ∈ Finset.range m, g v * zetaC m ^ (-(j * v : ℤ)) := by
  rw [Finset.mul_sum]
  refine Finset.sum_nbij' (fun p => (p + (m - u)) % m) (fun v => (v + u) % m)
    ?_ ?_ ?_ ?_ ?_
  · intro p hp
    exact Finset.mem_range.mpr (Nat.mod_lt _ hm)
  · intro v hv
    exact Finset.mem_range.mpr (Nat.mod_lt _ hm)
  · intro p hp
    have hplt : p < m := Finset.mem_range.mp hp
    show ((p + (m - u)) % m + u) % m = p
    rw [Nat.mod_add_mod]
    have h1 : p + (m - u) + u = p + m := by omega
    rw [h1, Nat.add_mod_right]
    exact Nat.mod_eq_of_lt hplt
  · intro v hv
    have hvlt : v < m := Finset.mem_range.mp hv
    show ((v + u) % m + (m - u)) % m = v
    rw [Nat.mod_add_mod]
    have h1 : v + u + (m - u) = v + m := by omega
    rw [h1, Nat.add_mod_right]
    exact Nat.mod_eq_of_lt hvlt
  · intro p hp
    have hplt : p < m := Finset.mem_range.mp hp
    have harg : p + m - u = p + (m - u) := by omega
    rw [harg]
    show g ((p + (m - u)) % m) * zetaC m ^ (-((j : ℤ) * (p : ℤ))) =
      zetaC m ^ (-((j : ℤ) * (u : ℤ))) *
        (g ((p + (m - u)) % m) *
          zetaC m ^ (-((j : ℤ) * (((p + (m - u)) % m : ℕ) : ℤ))))
    have h : m * ((p + (m - u)) / m) + (p + (m - u)) % m = p + (m - u) :=
      Nat.div_add_mod _ m
    have hc : (m : ℤ) * (((p + (m - u)) / m : ℕ) : ℤ) + (((p + (m - u)) % m : ℕ) : ℤ) =
        ((p : ℤ) + ((m - u : ℕ) : ℤ)) := by
      exact_mod_cast h
    have hmu : ((m - u : ℕ) : ℤ) = (m : ℤ) - (u : ℤ) := by
      have hle : u ≤ m := hu.le
      exact_mod_cast Int.ofNat_sub hle
    rw [hmu] at hc
    have hmod : (((p + (m - u)) % m : ℕ) : ℤ) =
        (p : ℤ) + (m : ℤ) - (u : ℤ) - (m : ℤ) * (((p + (m - u)) / m : ℕ) : ℤ) := by
      linarith
    have hz : zetaC m ^ (-((j : ℤ) * (u : ℤ))) *
        zetaC m ^ (-((j : ℤ) * (((p + (m - u)) % m : ℕ) : ℤ))) =
        zetaC m ^ (-((j : ℤ) * (p : ℤ))) := by
      rw [← zpow_add₀ (zetaC_ne_zero m)]
      apply zetaC_zpow_congr m hm
      refine ⟨(j : ℤ) * ((((p + (m - u)) / m : ℕ) : ℤ) - 1), ?_⟩
      rw [hmod]
      ring
    calc g ((p + (m - u)) % m) * zetaC m ^ (-((j : ℤ) * (p : ℤ)))
        = g ((p + (m - u)) % m) *
            (zetaC m ^ (-((j : ℤ) * (u : ℤ))) *
              zetaC m ^ (-((j : ℤ) * (((p + (m - u)) % m : ℕ) : ℤ)))) := by rw [hz]
      _ = zetaC m ^ (-((j : ℤ) * (u : ℤ))) *
            (g ((p + (m - u)) % m) *
              zetaC m ^ (-((j : ℤ) * (((p + (m - u)) % m : ℕ) : ℤ)))) := by ring

theorem dftC_conv (f g : ℕ → ℂ) (m : ℕ) (hm : 0 < m) (j : ℕ) :
    dftC (fun p => ∑ u ∈ Finset.range m, f u * g ((p + m - u) % m)) m j =
      dftC f m j * dftC g m j := by
  unfold dftC
  calc ∑ p ∈ Finset.range m,
        (∑ u ∈ Finset.range m, f u * g ((p + m - u) % m)) * zetaC m ^ (-(j * p : ℤ))
      = ∑ p ∈ Finset.range m, ∑ u ∈ Finset.range m,
          f u * (g ((p + m - u) % m) * zetaC m ^ (-(j * p : ℤ))) := by
        refine Finset.sum_congr rfl fun p _ => ?_
        rw [Finset.sum_mul]
        refine Finset.sum_congr rfl fun u _ => ?_
        ring
    _ = ∑ u ∈ Finset.range m, f u *
          ∑ p ∈ Finset.range m, g ((p + m - u) % m) * zetaC m ^ (-(j * p : ℤ)) := by
        rw [Finset.sum_comm]
        refine Finset.sum_congr rfl fun u _ => ?_
        rw [Finset.mul_sum]
    _ = ∑ u ∈ Finset.range m, f u *
          (zetaC m ^ (-(j * u : ℤ)) * ∑ v ∈ Finset.range m, g v * zetaC m ^ (-(j * v : ℤ))) := by
        refine Finset.sum_congr rfl fun u hu => ?_
        rw [conv_inner g m hm j u (Finset.mem_range.mp hu)]
    _ = (∑ u ∈ Finset.range m, f u * zetaC m ^ (-(j * u : ℤ))) *
          ∑ v ∈ Finset.range m, g v * zetaC m ^ (-(j * v : ℤ)) := by
        rw [Finset.sum_mul]
        refine Finset.sum_congr rfl fun u _ => ?_
        ring

theorem swapReIm_len (a : CArr) : (swapReIm a).length = a.length := rfl

theorem mulByArray_len (a b : CArr) : (a.mulByArray b).length = a.length := rfl

theorem mulAllByReal_len (a : CArr) (r : ℝ) : (a.mulAllByReal r).length = a.length := rfl

theorem fftS_pow2_len_true (fuel : ℕ) (c : Cache) (x : CArr) (k : ℕ)
    (hlen : x.length = 2 ^ k) (hk : 1 ≤ k) (hk30 : k ≤ 30) :
    (fftS fuel c x true).1.length = 2 ^ k := by
  rw [fftS_pow2_eq fuel c x k hlen hk hk30, fftCooleyTukeyS_len]
  exact hlen

theorem fftS_pow2_len_false (fuel : ℕ) (c : Cache) (x : CArr) (hx : x.wf) (k : ℕ)
    (hlen : x.length = 2 ^ k) (hk : 1 ≤ k) (hk30 : k ≤ 30) :
    (fftS fuel c x false).1.length = 2 ^ k := by
  rw [fftS_inverse_swap fuel c x hx]
  show (swapReIm (fftS fuel c (swapReIm x) true).1).length = 2 ^ k
  rw [swapReIm_len]
  exact fftS_pow2_len_true fuel c (swapReIm x) k hlen hk hk30

theorem convolveS_correct (fuel : ℕ) (c : Cache) (hc : CacheOk c) (a1 a2 : CArr)
    (t : ℕ) (hlen1 : a1.length = 2 ^ t) (hlen2 : a2.length = 2 ^ t)
    (ht : 1 ≤ t) (ht30 : t ≤ 30) :
    (∀ p, p < 2 ^ t → (convolveWith (fftS fuel) c a1 a2).1.toC p =
      ∑ u ∈ Finset.range (2 ^ t), a1.toC u * a2.toC ((p + 2 ^ t - u) % 2 ^ t)) ∧
    (convolveWith (fftS fuel) c a1 a2).1.re.length = 2 ^ t ∧
    (convolveWith (fftS fuel) c a1 a2).1.im.length = 2 ^ t ∧
    (convolveWith (fftS fuel) c a1 a2).1.length = 2 ^ t ∧
    CacheOk (convolveWith (fftS fuel) c a1 a2).2 := by
  have hne : ¬ (a2.length ≠ a1.length) := by
    rw [hlen1, hlen2]
    exact fun h => h rfl
  have key : convolveWith (fftS fuel) c a1 a2 =
      ((fftS fuel (fftS fuel (fftS fuel c a1 true).2 a2 true).2 ((fftS fuel c a1 true).1.mulByArray (fftS fuel (fftS fuel c a1 true).2 a2 true).1) false).1.mulAllByReal (1 / (a1.length : ℝ)), (fftS fuel (fftS fuel (fftS fuel c a1 true).2 a2 true).2 ((fftS fuel c a1 true).1.mulByArray (fftS fuel (fftS fuel c a1 true).2 a2 true).1) false).2) := by
    unfold convolveWith
    rw [if_neg hne]
  obtain ⟨hv1, hre1, him1, hcok1⟩ := fftS_pow2_dft fuel c hc a1 t hlen1 ht ht30
  obtain ⟨hv2, hre2, him2, hcok2⟩ := fftS_pow2_dft fuel (fftS fuel c a1 true).2 hcok1 a2 t hlen2 ht ht30
  have hlen3 : (fftS fuel c a1 true).1.length = 2 ^ t := fftS_pow2_len_true fuel c a1 t hlen1 ht ht30
  obtain ⟨ha3re, ha3im⟩ := mulByArray_lengths (fftS fuel c a1 true).1 (fftS fuel (fftS fuel c a1 true).2 a2 true).1
  have ha3len : ((fftS fuel c a1 true).1.mulByArray (fftS fuel (fftS fuel c a1 true).2 a2 true).1).length = 2 ^ t := by rw [mulByArray_len, hlen3]
  have ha3wf : ((fftS fuel c a1 true).1.mulByArray (fftS fuel (fftS fuel c a1 true).2 a2 true).1).wf := by
    constructor
    · rw [ha3re, mulByArray_len]
    · rw [ha3im, mulByArray_len]
  obtain ⟨hv5, hre5, him5, hcok5⟩ :=
    fftS_pow2_idft fuel (fftS fuel (fftS fuel c a1 true).2 a2 true).2 hcok2 ((fftS fuel c a1 true).1.mulByArray (fftS fuel (fftS fuel c a1 true).2 a2 true).1) ha3wf t ha3len ht ht30
  have ha3val : ∀ q, q < 2 ^ t → ((fftS fuel c a1 true).1.mulByArray (fftS fuel (fftS fuel c a1 true).2 a2 true).1).toC q =
      dftC a1.toC (2 ^ t) q * dftC a2.toC (2 ^ t) q := by
    intro q hq
    rw [mulByArray_toC (fftS fuel c a1 true).1 (fftS fuel (fftS fuel c a1 true).2 a2 true).1 q (by rw [hlen3]; exact hq)]
    rw [hv1 q hq, hv2 q hq]
  have hstep : ∀ q, q < 2 ^ t → ((fftS fuel c a1 true).1.mulByArray (fftS fuel (fftS fuel c a1 true).2 a2 true).1).toC q =
      dftC (fun p => ∑ u ∈ Finset.range (2 ^ t),
        a1.toC u * a2.toC ((p + 2 ^ t - u) % 2 ^ t)) (2 ^ t) q := by
    intro q hq
    rw [ha3val q hq]
    exact (dftC_conv a1.toC a2.toC (2 ^ t) (Nat.pos_pow_of_pos _ (by norm_num)) q).symm
  rw [key]
  have hone : (((1 / ((2 ^ t : ℕ) : ℝ) : ℝ)) : ℂ) * (((2 ^ t : ℕ)) : ℂ) = 1 := by
    have hpos : ((2 ^ t : ℕ) : ℝ) ≠ 0 := by positivity
    push_cast
    field_simp
  refine ⟨?_, ?_, ?_, ?_, hcok5⟩
  · intro p hp
    rw [mulAllByReal_toC (fftS fuel (fftS fuel (fftS fuel c a1 true).2 a2 true).2 ((fftS fuel c a1 true).1.mulByArray (fftS fuel (fftS fuel c a1 true).2 a2 true).1) false).1 (1 / (a1.length : ℝ)) p (by rw [hre5]; exact hp)
      (by rw [him5]; exact hp)]
    rw [hv5 p hp]
    rw [idftC_congr ((fftS fuel c a1 true).1.mulByArray (fftS fuel (fftS fuel c a1 true).2 a2 true).1).toC (fun q => dftC (fun p' => ∑ u ∈ Finset.range (2 ^ t),
      a1.toC u * a2.toC ((p' + 2 ^ t - u) % 2 ^ t)) (2 ^ t) q) (2 ^ t) p
      (fun q hq => hstep q hq)]
    rw [dft_inversion _ (2 ^ t) (Nat.pos_pow_of_pos _ (by norm_num)) p hp]
    rw [hlen1, ← mul_assoc, hone, one_mul]
  · rw [(mulAllByReal_lengths (fftS fuel (fftS fuel (fftS fuel c a1 true).2 a2 true).2 ((fftS fuel c a1 true).1.mulByArray (fftS fuel (fftS fuel c a1 true).2 a2 true).1) false).1 (1 / (a1.length : ℝ))).1, hre5]
  · rw [(mulAllByReal_lengths (fftS fuel (fftS fuel (fftS fuel c a1 true).2 a2 true).2 ((fftS fuel c a1 true).1.mulByArray (fftS fuel (fftS fuel c a1 true).2 a2 true).1) false).1 (1 / (a1.length : ℝ))).2, him5]
  · rw [mulAllByReal_len]
    exact fftS_pow2_len_false fuel (fftS fuel (fftS fuel c a1 true).2 a2 true).2 ((fftS fuel c a1 true).1.mulByArray (fftS fuel (fftS fuel c a1 true).2 a2 true).1) ha3wf t ha3len ht ht30

theorem bluesteinM_facts (n : ℕ) (h3 : 3 ≤ n) (h256 : n ≤ 256) :
    ∃ τ, bluesteinM n = 2 ^ τ ∧ 2 * n - 2 ≤ 2 ^ τ ∧ 2 ^ τ ≤ 1024 ∧ 1 ≤ τ ∧ τ ≤ 30 := by
  have hgt := nextPow2Loop_gt (2 * n - 3) 1 one_pos
  obtain ⟨τ, hτ⟩ := nextPow2Loop_pow (2 * n - 3) 1 ⟨0, rfl⟩
  have hle := nextPow2Loop_le (2 * n - 3) 1 one_pos (by omega)
  have hm : bluesteinM n = 2 ^ τ := hτ
  rw [hτ] at hgt hle
  have hbound : 2 ^ τ ≤ 1024 := by omega
  have hτ1 : 1 ≤ τ := by
    match τ, hgt with
    | 0, hgt => rw [pow_zero] at hgt; omega
    | τ' + 1, _ => omega
  have hτ30 : τ ≤ 30 := by
    by_contra hgt31
    push_neg at hgt31
    have h31 : (2 : ℕ) ^ 31 ≤ 2 ^ τ := Nat.pow_le_pow_right (by norm_num) (by omega)
    have hval : (2 : ℕ) ^ 31 = 2147483648 := by norm_num
    omega
  exact ⟨τ, hm, by omega, hbound, hτ1, hτ30⟩

theorem bluesteinA2_value (st : CArr) (n m : ℕ) (hm : 2 * n - 2 ≤ m) (h1 : 2 ≤ n)
    (hst : ∀ i, i < n → st.toC i = zetaC (2 * n) ^ ((i * i : ℕ) : ℤ))
    (i u : ℕ) (hi : i < n) (hu : u < n) :
    (bluesteinA2 st n m).toC ((i + m - u) % m) = zetaC (2 * n) ^ (((i : ℤ) - u) ^ 2) := by
  have hnm : n ≤ m := by omega
  by_cases hui : u ≤ i
  · have hidx : (i + m - u) % m = i - u := by
      have h2 : i + m - u = m + (i - u) := by omega
      rw [h2, Nat.add_mod_left]
      exact Nat.mod_eq_of_lt (by omega)
    rw [hidx]
    rw [bluesteinA2_toC st n m (i - u) (by omega)]
    have hc : ((i - u : ℕ) : ℤ) = (i : ℤ) - u := by omega
    by_cases hcase : 0 < m - (i - u) ∧ m - (i - u) < n
    · rw [if_pos hcase]
      have heq : m - (i - u) = i - u := by omega
      rw [heq, hst (i - u) (by omega)]
      congr 1
      push_cast
      rw [hc]
      ring
    · rw [if_neg hcase, if_pos (show i - u < n by omega)]
      rw [hst (i - u) (by omega)]
      congr 1
      push_cast
      rw [hc]
      ring
  · push_neg at hui
    have hidx : (i + m - u) % m = m - (u - i) := by
      have h2 : i + m - u = m - (u - i) := by omega
      rw [h2]
      exact Nat.mod_eq_of_lt (by omega)
    rw [hidx]
    rw [bluesteinA2_toC st n m (m - (u - i)) (by omega)]
    have hcase : 0 < m - (m - (u - i)) ∧ m - (m - (u - i)) < n := by omega
    rw [if_pos hcase]
    have heq : m - (m - (u - i)) = u - i := by omega
    rw [heq, hst (u - i) (by omega)]
    congr 1
    have hc : ((u - i : ℕ) : ℤ) = (u : ℤ) - i := by omega
    push_cast
    rw [hc]
    ring

theorem fftBluesteinS_dft (fuel : ℕ) (c : Cache) (hc : CacheOk c) (x : CArr) (n : ℕ)
    (hn : x.length = n) (h3 : 3 ≤ n) (h256 : n ≤ 256) :
    (∀ j, j < n → (fftBluesteinWith (fftS fuel) c x).1.toC j = dftC x.toC n j) ∧
    (fftBluesteinWith (fftS fuel) c x).1.re.length = n ∧
    (fftBluesteinWith (fftS fuel) c x).1.im.length = n ∧
    (fftBluesteinWith (fftS fuel) c x).1.length = n ∧
    CacheOk (fftBluesteinWith (fftS fuel) c x).2 := by
  have hn0 : 0 < n := by omega
  obtain ⟨τ, hmτ, hm2n, hm1024, hτ1, hτ30⟩ := bluesteinM_facts n h3 h256
  have key : fftBluesteinWith (fftS fuel) c x =
      (bluesteinA4 (convolveWith (fftS fuel) c
          (bluesteinA1 x (createSineOfSquareTable n (2 * n)) n (bluesteinM n))
          (bluesteinA2 (createSineOfSquareTable n (2 * n)) n (bluesteinM n))).1
        (createSineOfSquareTable n (2 * n)) n,
       (convolveWith (fftS fuel) c
          (bluesteinA1 x (createSineOfSquareTable n (2 * n)) n (bluesteinM n))
          (bluesteinA2 (createSineOfSquareTable n (2 * n)) n (bluesteinM n))).2) := by
    unfold fftBluesteinWith
    rw [hn]
  have hst : ∀ i, i < n → (createSineOfSquareTable n (2 * n)).toC i =
      zetaC (2 * n) ^ ((i * i : ℕ) : ℤ) :=
    fun i hi => sineOfSquare_toC n hn0 i hi
  have hA1len : (bluesteinA1 x (createSineOfSquareTable n (2 * n)) n (bluesteinM n)).length
      = 2 ^ τ := by
    rw [(bluesteinA1_shape x _ n (bluesteinM n)).2.2, hmτ]
  have hA2len : (bluesteinA2 (createSineOfSquareTable n (2 * n)) n (bluesteinM n)).length
      = 2 ^ τ := by
    rw [(bluesteinA2_shape _ n (bluesteinM n)).2.2, hmτ]
  obtain ⟨hcv, hcvre, hcvim, hcvlen, hcvcok⟩ :=
    convolveS_correct fuel c hc
      (bluesteinA1 x (createSineOfSquareTable n (2 * n)) n (bluesteinM n))
      (bluesteinA2 (createSineOfSquareTable n (2 * n)) n (bluesteinM n))
      τ hA1len hA2len hτ1 hτ30
  rw [key]
  refine ⟨?_, ?_, ?_, ?_, hcvcok⟩
  · intro j hj
    have hjm : j < 2 ^ τ := by omega
    rw [bluesteinA4_toC _ _ n j hj]
    rw [hcv j hjm]
    rw [hst j hj, zetaC_conj_zpow]
    rw [← hmτ]
    have hrestrict : ∑ u ∈ Finset.range (bluesteinM n),
        (bluesteinA1 x (createSineOfSquareTable n (2 * n)) n (bluesteinM n)).toC u *
          (bluesteinA2 (createSineOfSquareTable n (2 * n)) n (bluesteinM n)).toC
            ((j + bluesteinM n - u) % bluesteinM n) =
        ∑ u ∈ Finset.range n,
          (bluesteinA1 x (createSineOfSquareTable n (2 * n)) n (bluesteinM n)).toC u *
            (bluesteinA2 (createSineOfSquareTable n (2 * n)) n (bluesteinM n)).toC
              ((j + bluesteinM n - u) % bluesteinM n) := by
      symm
      apply Finset.sum_subset (Finset.range_subset.mpr (by omega))
      intro u hum hun
      have hu1 : u < bluesteinM n := Finset.mem_range.mp hum
      have hu2 : ¬ u < n := fun h => hun (Finset.mem_range.mpr h)
      rw [bluesteinA1_toC x _ n (bluesteinM n) u hu1, if_neg hu2, zero_mul]
    rw [hrestrict, Finset.sum_mul]
    show _ = dftC x.toC n j
    unfold dftC
    refine Finset.sum_congr rfl fun u hun => ?_
    have hu : u < n := Finset.mem_range.mp hun
    rw [bluesteinA1_toC x _ n (bluesteinM n) u (by omega), if_pos hu]
    rw [hst u hu, zetaC_conj_zpow]
    rw [bluesteinA2_value _ n (bluesteinM n) (by omega) (by omega) hst j u hj hu]
    have hzeta : zetaC (2 * n) ^ (-((u * u : ℕ) : ℤ)) * zetaC (2 * n) ^ (((j : ℤ) - u) ^ 2) *
        zetaC (2 * n) ^ (-((j * j : ℕ) : ℤ)) = zetaC n ^ (-((j : ℤ) * (u : ℤ))) := by
      rw [← zpow_add₀ (zetaC_ne_zero _), ← zpow_add₀ (zetaC_ne_zero _)]
      have hexp : -((u * u : ℕ) : ℤ) + ((j : ℤ) - u) ^ 2 + -((j * j : ℕ) : ℤ) =
          (2 : ℤ) * (-((j : ℤ) * (u : ℤ))) := by
        push_cast
        ring
      rw [hexp]
      exact zetaC_scale 2 n (by norm_num) hn0 _
    calc x.toC u * zetaC (2 * n) ^ (-((u * u : ℕ) : ℤ)) *
          zetaC (2 * n) ^ (((j : ℤ) - u) ^ 2) * zetaC (2 * n) ^ (-((j * j : ℕ) : ℤ))
        = x.toC u * (zetaC (2 * n) ^ (-((u * u : ℕ) : ℤ)) *
            zetaC (2 * n) ^ (((j : ℤ) - u) ^ 2) *
            zetaC (2 * n) ^ (-((j * j : ℕ) : ℤ))) := by ring
      _ = x.toC u * zetaC n ^ (-((j : ℤ) * (u : ℤ))) := by rw [hzeta]
  · exact (bluesteinA4_shape _ _ n).1
  · exact (bluesteinA4_shape _ _ n).2.1
  · exact (bluesteinA4_shape _ _ n).2.2

theorem slice_toC (a : CArr) (j : ℕ) : a.slice.toC j = a.toC j := rfl

theorem dftC_one (f : ℕ → ℂ) : dftC f 1 0 = f 0 := by
  unfold dftC
  rw [Finset.sum_range_one]
  norm_num

theorem idftC_one (f : ℕ → ℂ) : idftC f 1 0 = f 0 := by
  unfold idftC
  rw [Finset.sum_range_one]
  norm_num

theorem fftS_dft_all (fuel : ℕ) (hfuel : 1 ≤ fuel) (c : Cache) (hc : CacheOk c) (x : CArr)
    (hx : x.wf) (h1 : 1 ≤ x.length) (h256 : x.length ≤ 256) :
    (∀ j, j < x.length → (fftS fuel c x true).1.toC j = dftC x.toC x.length j) ∧
    (fftS fuel c x true).1.re.length = x.length ∧
    (fftS fuel c x true).1.im.length = x.length ∧
    (fftS fuel c x true).1.length = x.length ∧
    CacheOk (fftS fuel c x true).2 := by
  by_cases hn1 : x.length ≤ 1
  · have hl1 : x.length = 1 := by omega
    have hunf : fftS fuel c x true = (x.slice, c) := by
      rw [fftS, if_pos hn1]
    rw [hunf]
    refine ⟨?_, ?_, ?_, ?_, hc⟩
    · intro j hj
      have hj0 : j = 0 := by omega
      subst hj0
      rw [slice_toC, hl1, dftC_one]
    · show x.re.length = x.length
      exact hx.1
    · show x.im.length = x.length
      exact hx.2
    · show x.re.length = x.length
      exact hx.1
  · by_cases hp : isPowerOf2 x.length = true
    · obtain ⟨heq, h30⟩ := isPowerOf2_pow x.length hp
      have hk1 : 1 ≤ floorLog2 x.length := by
        by_contra hk0
        push_neg at hk0
        have : floorLog2 x.length = 0 := by omega
        rw [this, pow_zero] at heq
        omega
      obtain ⟨hv, hre, him, hcok⟩ :=
        fftS_pow2_dft fuel c hc x (floorLog2 x.length) heq hk1 h30
      refine ⟨?_, ?_, ?_, ?_, hcok⟩
      · intro j hj
        rw [heq] at hj ⊢
        exact hv j hj
      · rw [hre, ← heq]
      · rw [him, ← heq]
      · rw [fftS_pow2_len_true fuel c x (floorLog2 x.length) heq hk1 h30, ← heq]
    · have h2 : 2 ≤ x.length := by omega
      have h3 : 3 ≤ x.length := by
        by_contra hlt
        push_neg at hlt
        have hl2 : x.length = 2 := by omega
        have : isPowerOf2 x.length = true := by
          rw [hl2]
          have h21 : (2 : ℕ) = 2 ^ 1 := by norm_num
          rw [h21]
          exact isPowerOf2_of_pow 1 (by norm_num)
        exact hp this
      obtain ⟨fuel', rfl⟩ : ∃ f', fuel = f' + 1 := ⟨fuel - 1, by omega⟩
      have hpf : isPowerOf2 x.length = false := by
        rw [Bool.not_eq_true] at hp
        exact hp
      have hunf : fftS (fuel' + 1) c x true = fftBluesteinWith (fftS fuel') c x := by
        rw [fftS, if_neg hn1]
        simp only [hpf, Bool.false_eq_true, if_false]
        rfl
      rw [hunf]
      exact fftBluesteinS_dft fuel' c hc x x.length rfl h3 h256

theorem fftS_idft_all (fuel : ℕ) (hfuel : 1 ≤ fuel) (c : Cache) (hc : CacheOk c) (x : CArr)
    (hx : x.wf) (h1 : 1 ≤ x.length) (h256 : x.length ≤ 256) :
    (∀ j, j < x.length → (fftS fuel c x false).1.toC j = idftC x.toC x.length j) ∧
    (fftS fuel c x false).1.re.length = x.length ∧
    (fftS fuel c x false).1.im.length = x.length ∧
    (fftS fuel c x false).1.length = x.length ∧
    CacheOk (fftS fuel c x false).2 := by
  rw [fftS_inverse_swap fuel c x hx]
  have hswwf : (swapReIm x).wf := ⟨hx.2, hx.1⟩
  obtain ⟨hv, hre, him, hlenf, hcok⟩ :=
    fftS_dft_all fuel hfuel c hc (swapReIm x) hswwf h1 h256
  refine ⟨?_, ?_, ?_, ?_, hcok⟩
  · intro j hj
    show (swapReIm (fftS fuel c (swapReIm x) true).1).toC j = _
    rw [swapReIm_toC, hv j hj]
    have hsw : dftC (swapReIm x).toC (swapReIm x).length j =
        dftC (fun t => Complex.I * (starRingEnd ℂ) (x.toC t)) x.length j :=
      dftC_congr _ _ _ _ (fun t _ => swapReIm_toC x t)
    rw [hsw, dftC_swap, i_conj_i_conj]
  · show (fftS fuel c (swapReIm x) true).1.im.length = x.length
    exact him
  · show (fftS fuel c (swapReIm x) true).1.re.length = x.length
    exact hre
  · show (fftS fuel c (swapReIm x) true).1.length = x.length
    exact hlenf

/-- **C9** (confirmed). For every cache satisfying the canonical-table
invariant, every well-formed complex sequence `x` with `1 ≤ n = x.length ≤
256`, and every index `j < n`, the round trip `fft(fft(x, true), false)`
scaled by `1/n` equals `x` at `j` within `1e-10` relative error (the embedded
exact-real transforms make the round trip exact, so the error is `0`). -/
theorem claim9_round_trip (c : Cache) (hc : CacheOk c) (x : CArr) (hx : x.wf)
    (h1 : 1 ≤ x.length) (h256 : x.length ≤ 256) :
    ∀ j, j < x.length →
      Complex.abs
        (((fft (fft c x true).2 (fft c x true).1 false).1.mulAllByReal
            (1 / (x.length : ℝ))).toC j - x.toC j) ≤
        1e-10 * Complex.abs (x.toC j) := by
  intro j hj
  have h64 : (1 : ℕ) ≤ fftFuel := by decide
  obtain ⟨hv1, hre1, him1, hlen1, hcok1⟩ := fftS_dft_all fftFuel h64 c hc x hx h1 h256
  have hywf : (fftS fftFuel c x true).1.wf :=
    ⟨hre1.trans hlen1.symm, him1.trans hlen1.symm⟩
  obtain ⟨hv2, hre2, him2, hlen2, hcok2⟩ :=
    fftS_idft_all fftFuel h64 (fftS fftFuel c x true).2 hcok1 (fftS fftFuel c x true).1 hywf
      (by rw [hlen1]; exact h1) (by rw [hlen1]; exact h256)
  have hval : (fftS fftFuel (fftS fftFuel c x true).2 (fftS fftFuel c x true).1 false).1.toC j
      = ((x.length : ℕ) : ℂ) * x.toC j := by
    rw [hv2 j (by rw [hlen1]; exact hj), hlen1]
    rw [idftC_congr _ (fun t => dftC x.toC x.length t) x.length j (fun t ht => hv1 t ht)]
    exact dft_inversion x.toC x.length (by omega) j hj
  have hfin : ((fft (fft c x true).2 (fft c x true).1 false).1.mulAllByReal
      (1 / (x.length : ℝ))).toC j = x.toC j := by
    show ((fftS fftFuel (fftS fftFuel c x true).2 (fftS fftFuel c x true).1
      false).1.mulAllByReal (1 / (x.length : ℝ))).toC j = x.toC j
    rw [mulAllByReal_toC _ _ j (by rw [hre2, hlen1]; exact hj)
      (by rw [him2, hlen1]; exact hj)]
    rw [hval]
    have hpos : (0 : ℝ) < ((x.length : ℕ) : ℝ) := by
      have : (1 : ℝ) ≤ ((x.length : ℕ) : ℝ) := by exact_mod_cast h1
      linarith
    have hone : (((1 / (x.length : ℝ) : ℝ)) : ℂ) * ((x.length : ℕ) : ℂ) = 1 := by
      have hneC : ((x.length : ℕ) : ℂ) ≠ 0 := Nat.cast_ne_zero.mpr (by omega)
      push_cast
      field_simp
    rw [← mul_assoc, hone, one_mul]
  rw [hfin, sub_self, map_zero]
  exact mul_nonneg (by norm_num) (Complex.abs.nonneg _)

theorem claim9_witness :
    CacheOk emptyCache ∧ (ofReal [1]).wf ∧ 1 ≤ (ofReal [1]).length ∧
      (ofReal [1]).length ≤ 256 ∧
      (∀ j, j < (ofReal [1]).length →
        Complex.abs
          (((fft (fft emptyCache (ofReal [1]) true).2 (fft emptyCache (ofReal [1]) true).1
              false).1.mulAllByReal (1 / ((ofReal [1]).length : ℝ))).toC j -
            (ofReal [1]).toC j) ≤ 1e-10 * Complex.abs ((ofReal [1]).toC j)) := by
  have hc : CacheOk emptyCache := fun _ _ h => nomatch h
  have hwf : (ofReal [1]).wf := ⟨rfl, rfl⟩
  refine ⟨hc, hwf, by decide, by decide, ?_⟩
  exact claim9_round_trip emptyCache hc (ofReal [1]) hwf (by decide) (by decide)

end DspFft

